import Mathlib

/-!
Verification of the chunked text-to-speech pipeline in `TTSApp.py`.

The development shallowly embeds the pure core of the program:

* the text segmenter `split_text_simple` (strings as `List Char`, Python
  string primitives `strip`, `rfind`, `split("\n\n")`, slicing modelled
  faithfully; character classes `isspace` / `isalpha` / `isupper` are
  modelled on the ASCII range, which covers every character class test the
  program performs on its own literals),
* the concurrent orchestrator `run_conversion_concurrent_ffmpeg` as a
  function of an environment describing the behaviour of each chunk task,
  the completion order of the tasks, the filesystem checks and the external
  merge-tool outcome,
* the per-task body `process_single_chunk`, the result-validation /
  manifest-building scan, the cleanup helper `_cleanup_temp_files`, and the
  thread wrapper `run_conversion_wrapper`,
* the semaphore discipline of the task pool as a small-step transition
  system, and
* the progress / ETA computation of `update_progress_display` over exact
  rationals.

The Python `while` loops are embedded with an explicit fuel argument large
enough to cover every terminating run of the source (for the segmenter the
source loop terminates exactly when `max_length ≥ 1`, and the fuel
`length + 1` then suffices because every iteration advances the cursor).
-/

/-- Python `str.isspace` on one character, restricted to the ASCII
whitespace characters (space, tab, newline, carriage return, vertical tab,
form feed). -/
def pyIsSpace (c : Char) : Bool :=
  c = ' ' || c = '\t' || c = '\n' || c = '\r' || c = '\x0b' || c = '\x0c'

/-- Python `str.isalpha` on one character, restricted to ASCII letters. -/
def pyIsAlpha (c : Char) : Bool :=
  ('a' ≤ c && c ≤ 'z') || ('A' ≤ c && c ≤ 'Z')

/-- Python `str.isupper` on one character, restricted to ASCII letters. -/
def pyIsUpper (c : Char) : Bool :=
  'A' ≤ c && c ≤ 'Z'

/-- Python `str.strip()` with no argument: drop whitespace from both ends. -/
def pyStrip (l : List Char) : List Char :=
  (l.dropWhile pyIsSpace).rdropWhile pyIsSpace

/-- Python `s.isspace()` on a whole string: nonempty and all whitespace. -/
def pyIsSpaceStr (l : List Char) : Bool :=
  !l.isEmpty && l.all pyIsSpace

/-- The two-character paragraph separator `"\n\n"`. -/
def nlnl : List Char := ['\n', '\n']

/-- Index of the first occurrence of `sep` as a contiguous sublist, if any
(the scan position used by Python `str.split(sep)`). -/
def findSub (sep : List Char) : List Char → Option Nat
  | [] => if sep.isPrefixOf ([] : List Char) then some 0 else none
  | c :: rest =>
    if sep.isPrefixOf (c :: rest) then some 0
    else (findSub sep rest).map (· + 1)

/-- Fuelled worker for `text.split("\n\n")`: cut at each occurrence of the
separator, scanning left to right.  Each step removes at least two
characters, so fuel `text.length` always suffices. -/
def splitOnSepF : Nat → List Char → List (List Char)
  | 0, l => [l]
  | fuel + 1, l =>
    match findSub nlnl l with
    | none => [l]
    | some i => l.take i :: splitOnSepF fuel (l.drop (i + 2))

/-- Python `text.split("\n\n")`. -/
def splitOnSep (l : List Char) : List (List Char) :=
  splitOnSepF l.length l

/-- `text` contains a blank-line paragraph break (`"\n\n"` occurs in it). -/
def hasNlNl (l : List Char) : Bool :=
  (findSub nlnl l).isSome

/-- Python slice `l[a:b]` for natural bounds. -/
def pySlice (l : List Char) (a b : Nat) : List Char :=
  (l.take b).drop a

/-- Python `paragraph.rfind(c, start, stop)`: the greatest index `i` with
`start ≤ i < min stop (length l)` and `l[i] = c`, as an `Option`
(the source's `-1` becomes `none`). -/
def pyRfind (l : List Char) (c : Char) (start stop : Nat) : Option Nat :=
  ((List.range (min stop l.length)).filter
    (fun i => decide (start ≤ i) && (l.getD i ' ' == c))).max?

/-- `TTSApp.py` line 162-163: the candidate break is a sentence end only if
it is followed by whitespace or sits at the end of the paragraph. -/
def boundaryOK (p : List Char) (i : Nat) : Bool :=
  (i + 1 == p.length) || (decide (i + 1 < p.length) && pyIsSpace (p.getD (i + 1) ' '))

/-- `TTSApp.py` line 167: the abbreviation/initialism heuristic.  The break
is skipped when it lies more than two characters past the cursor and the
two characters before the punctuation are letters whose first is
uppercase. -/
def abbrevSkip (p : List Char) (start i : Nat) : Bool :=
  decide (start + 2 < i) && pyIsAlpha (p.getD (i - 2) ' ') &&
    pyIsAlpha (p.getD (i - 1) ' ') && pyIsUpper (p.getD (i - 2) ' ')

/-- The contribution of one punctuation character to `best_break`
(`TTSApp.py` lines 156-171): the rightmost occurrence of `punct` in the
window `[start, min (start+maxLen+50) len)`, kept only when it is strictly
past the cursor, is a valid sentence end, and survives the abbreviation
heuristic. -/
def punctCandidate (p : List Char) (start maxLen : Nat) (punct : Char) : Option Nat :=
  match pyRfind p punct start (min (start + maxLen + 50) p.length) with
  | some i =>
    if start < i && boundaryOK p i && !abbrevSkip p start i then some i else none
  | none => none

/-- `best_break` (`TTSApp.py` lines 153-171): fold `max` over the
per-punctuation candidates, `-1` modelled as `none`. -/
def best_break (p : List Char) (start maxLen : Nat) : Option Nat :=
  [('.' : Char), '?', '!'].foldl
    (fun best punct =>
      match punctCandidate p start maxLen punct with
      | some i => some (match best with | some b => Nat.max b i | none => i)
      | none => best)
    none

/-- The three per-punctuation candidates that were accepted, as a list
(used to state the declarative characterisation of `best_break`). -/
def codeCandidates (p : List Char) (start maxLen : Nat) : List Nat :=
  [('.' : Char), '?', '!'].filterMap (punctCandidate p start maxLen)

/-- The end of the chunk cut in one iteration of the long-paragraph loop
(`TTSApp.py` lines 152-178): `end = start + max_length`, replaced by
`best_break + 1` when a break was found, clamped to the paragraph end
otherwise. -/
def chunk_end (p : List Char) (start maxLen : Nat) : Nat :=
  match best_break p start maxLen with
  | some b => b + 1
  | none => if p.length ≤ start + maxLen then p.length else start + maxLen

/-- The long-paragraph `while start < len(paragraph)` loop (`TTSApp.py`
lines 150-182), with explicit fuel.  With `maxLen ≥ 1` every iteration
advances `start`, so fuel `p.length + 1` reproduces the Python loop. -/
def splitLongLoop (p : List Char) (maxLen : Nat) : Nat → Nat → List (List Char)
  | 0, _ => []
  | fuel + 1, start =>
    if start < p.length then
      let e := chunk_end p start maxLen
      let chunk := pyStrip (pySlice p start e)
      if chunk = [] then splitLongLoop p maxLen fuel e
      else chunk :: splitLongLoop p maxLen fuel e
    else []

/-- The chunks contributed by one stripped, nonempty paragraph
(`TTSApp.py` lines 147-182). -/
def paragraphChunks (maxLen : Nat) (para : List Char) : List (List Char) :=
  if para.length ≤ maxLen then [para]
  else splitLongLoop para maxLen (para.length + 1) 0

/-- `TEXT_CHUNK_SIZE` (`TTSApp.py` line 31). -/
def TEXT_CHUNK_SIZE : Nat := 2500

/-- `split_text_simple` (`TTSApp.py` lines 135-189): split on blank lines,
strip each paragraph, split long paragraphs at sentence ends, filter empty
chunks, and fall back to the whole stripped text if splitting a nonblank
text produced nothing. -/
def split_text_simple (text : List Char) (maxLen : Nat) : List (List Char) :=
  if text = [] then []
  else
    let chunks := (splitOnSep text).flatMap (fun para0 =>
      let para := pyStrip para0
      if para = [] then [] else paragraphChunks maxLen para)
    let finalChunks := chunks.filter (fun c => !c.isEmpty)
    if finalChunks = [] && !(pyStrip text).isEmpty then [pyStrip text]
    else finalChunks

/-- Modelled from the claim C8 wording (spec §4.1): position `i` is a valid
sentence boundary for the cursor window — a sentence-ending punctuation
inside `[cursor, cursor+maxLength+50)`, followed by whitespace or the end
of the text, and not matching the abbreviation heuristic (the two
characters preceding the punctuation are letters with the first
uppercase). -/
def specValidBoundary (p : List Char) (cursor maxLen i : Nat) : Bool :=
  decide (cursor ≤ i) && decide (i < min (cursor + maxLen + 50) p.length) &&
    (p.getD i ' ' == '.' || p.getD i ' ' == '?' || p.getD i ' ' == '!') &&
    boundaryOK p i &&
    !(pyIsAlpha (p.getD (i - 2) ' ') && pyIsAlpha (p.getD (i - 1) ' ') &&
      pyIsUpper (p.getD (i - 2) ' '))

/-! ## The orchestrator-and-merge pipeline (`run_conversion_concurrent_ffmpeg`) -/

/-- One entry of `results_data` (`TTSApp.py` line 696): the tuple
`(index, temp_path_or_None, error_msg_or_None, duration_or_None)`. -/
structure ChunkRecord where
  index : Nat
  artifact : Option String
  error : Option String
  duration : Option ℚ
deriving DecidableEq

/-- The initial `results_data` array: `[(i, None, None, None) for i in range(n)]`. -/
def initialRecords (n : Nat) : List ChunkRecord :=
  (List.range n).map (fun i => ⟨i, none, none, none⟩)

/-- The name of the per-chunk temporary audio file (the unique name handed
out by `tempfile.NamedTemporaryFile`, abstracted by the chunk index). -/
def tempPath (i : Nat) : String := "tmp" ++ toString i

/-- `text_to_speech_async` (`TTSApp.py` lines 112-131) as a function of the
chunk text and the outcome of the `edge_tts` network call (`Except.ok d` =
the call succeeds after `d` seconds, `Except.error e` = it raises `e`).
Returns the source's `(success, error_message, duration)` triple.  Blank
text short-circuits to `(True, None, 0.0)` before the network call. -/
def text_to_speech_async (text : List Char) (call : Except String ℚ) :
    Bool × Option String × Option ℚ :=
  if text.isEmpty || pyIsSpaceStr text then (true, none, some 0)
  else
    match call with
    | .ok d => (true, none, some d)
    | .error e => (false, some e, none)

/-- How one chunk task unfolds, fixed by the environment of a run:
it observes the closing flag at entry (`skippedAtEntry`, line 702), or
after acquiring the semaphore (`cancelledAfterSem`, lines 716-718), or it
reaches the TTS call whose network outcome is `adapter`, or an unexpected
exception `exn` hits its `except` block (lines 728-740). -/
inductive TaskBehavior where
  | skippedAtEntry
  | cancelledAfterSem
  | adapter (call : Except String ℚ)
  | exn (msg : String)

/-- The observable effect of one chunk task: the slot it wrote into
`results_data` (if any), whether its temp file is still in
`temp_file_paths_to_clean` afterwards, and whether the external synthesis
adapter was invoked.  (Whether its temp file is still on disk is tracked
separately by `taskFileOnDisk`.) -/
structure TaskEffect where
  slot : Option ChunkRecord
  registered : Bool
  adapterCalled : Bool
deriving DecidableEq

/-- The environment fixing one run of the pipeline: the chunk texts, the
output path, the values of the cooperative `self.closing` flag at each
checkpoint, each task's behaviour, the order in which the concurrent tasks
write their result slots, the filesystem validation and removal outcomes,
the ffmpeg availability, the merge-tool outcome, and whether an unexpected
exception escapes the result-processing code (to be caught by
`run_conversion_wrapper`). -/
structure RunEnv where
  chunks : List (List Char)
  outFile : String
  closing0 : Bool
  closingCreate : Option Nat
  behavior : Nat → TaskBehavior
  completionOrder : List Nat
  closingAfterGather : Bool
  fileOk : String → Bool
  removeOk : String → Bool
  ffmpegAvailable : Bool
  merge : Option (Int × String) × Bool
  raiseInResults : Bool
  excMsg : String

/-- The outcome of the external ffmpeg invocation:
`(some (code, stderr), _)` = the process finished with exit `code`,
`(none, _)` = `communicate` timed out (the process is killed), and the
Bool is true when an exception occurred during merge preparation before
the invocation (`except` at line 904). -/
def MergeOutcome := Option (Int × String) × Bool

/-- `process_single_chunk` (`TTSApp.py` lines 699-740): the effect of task
`i` under its scheduled behaviour.  Note that the temporary file is
created and registered, and the semaphore acquired, before the blank-text
check, which lives inside `text_to_speech_async`; on the exception path
the task removes its own path from the registry and best-effort deletes
the file. -/
def process_single_chunk (env : RunEnv) (i : Nat) : TaskEffect :=
  match env.behavior i with
  | .skippedAtEntry => ⟨none, false, false⟩
  | .cancelledAfterSem =>
    ⟨some ⟨i, none, some "Cancelled during semaphore wait", none⟩, true, false⟩
  | .adapter call =>
    let text := env.chunks.getD i []
    let r := text_to_speech_async text call
    ⟨some ⟨i, if r.1 then some (tempPath i) else none, r.2.1, r.2.2⟩,
      true, !(text.isEmpty || pyIsSpaceStr text)⟩
  | .exn m =>
    ⟨some ⟨i, none, some m, none⟩, false, false⟩

/-- Whether the temp file of task `i` is still on disk after the task ran:
always, except for a task skipped at entry (no file was created) and for
the exception path, which best-effort deletes its own file (lines
734-736) and leaves it behind exactly when `os.remove` fails. -/
def taskFileOnDisk (env : RunEnv) (i : Nat) : Bool :=
  match env.behavior i with
  | .skippedAtEntry => false
  | .cancelledAfterSem => true
  | .adapter _ => true
  | .exn _ => !env.removeOk (tempPath i)

/-- The record task `i` wrote into `results_data`, if any. -/
def taskSlot (env : RunEnv) (i : Nat) : Option ChunkRecord :=
  (process_single_chunk env i).slot

/-- The contents of `temp_file_paths_to_clean` after all tasks ran. -/
def registeredPaths (env : RunEnv) : List String :=
  (List.range env.chunks.length).filterMap
    (fun i => if (process_single_chunk env i).registered then some (tempPath i) else none)

/-- The temp files still present on disk after all tasks ran (before the
merge phase and the final cleanup). -/
def createdPaths (env : RunEnv) : List String :=
  if env.closing0 then []
  else
    match env.closingCreate with
    | some _ => []
    | none =>
      if env.chunks.length = 0 then []
      else
        (List.range env.chunks.length).filterMap
          (fun i => if taskFileOnDisk env i then some (tempPath i) else none)

/-- The concurrent filling of the pre-sized `results_data` array: the
tasks complete in the order `order`, and each completed task `i` writes
its record into slot `i` (`results_data[index] = ...`, line 721). -/
def writeResults (n : Nat) (res : Nat → Option ChunkRecord) (order : List Nat) :
    List ChunkRecord :=
  order.foldl
    (fun arr i =>
      match res i with
      | some r => arr.set i r
      | none => arr)
    (initialRecords n)

/-- `f"Chunk {idx+1} failed: {error_msg}"` (line 781). -/
def chunkFailMsg (idx : Nat) (e : String) : String :=
  "Chunk " ++ toString (idx + 1) ++ " failed: " ++ e

/-- `f"Chunk {idx+1} TTS reported success, but temp file '...' is missing
or empty."` (line 789). -/
def missingFileMsg (idx : Nat) (p : String) : String :=
  "Chunk " ++ toString (idx + 1) ++ " TTS reported success, but temp file \x27" ++
    p ++ "\x27 is missing or empty."

/-- The accumulator of the result-validation loop (lines 772-801):
`first_error_message_for_user`, `all_tts_chunks_succeeded`, and
`successful_temp_files_ordered`. -/
structure MergeScanState where
  firstError : Option String
  allOk : Bool
  successful : List (Option String)
deriving DecidableEq

/-- One iteration of the result-validation loop (lines 777-801).  Both
`if error_msg_from_chunk:` (line 778) and `elif file_path_or_none:` (line
783) are Python truthiness tests, which `None` and the empty string both
fail: a record whose stored error message is the empty string (or whose
artifact path is empty) falls through to the trivial-success case.
`Option.getD ""` maps both `none` and `some ""` to the falsy `""`.  (The
inner `if not first_error_message_for_user:` is also a truthiness test,
but the messages ever stored there are never empty, so `isNone` is
faithful for it.) -/
def scanStep (fileOk : String → Bool) (st : MergeScanState) (r : ChunkRecord) :
    MergeScanState :=
  if r.error.getD "" ≠ "" then
    ⟨if st.firstError.isNone then some (chunkFailMsg r.index (r.error.getD ""))
        else st.firstError,
      false, st.successful⟩
  else if r.artifact.getD "" ≠ "" then
    if fileOk (r.artifact.getD "") then
      ⟨st.firstError, st.allOk, st.successful.set r.index (some (r.artifact.getD ""))⟩
    else
      ⟨if st.firstError.isNone then some (missingFileMsg r.index (r.artifact.getD ""))
          else st.firstError,
        false, st.successful⟩
  else st

/-- The whole result-validation loop over `results_data`, started from
`first_error = None`, `all_ok = True`,
`successful_temp_files_ordered = [None] * n` (lines 772-801). -/
def process_results (fileOk : String → Bool) (n : Nat) (results : List ChunkRecord) :
    MergeScanState :=
  results.foldl (scanStep fileOk) ⟨none, true, List.replicate n none⟩

/-- `valid_files_to_merge = [f for f in successful_temp_files_ordered if f
is not None]` (line 804): the manifest handed to ffmpeg. -/
def valid_files_to_merge (st : MergeScanState) : List String :=
  st.successful.filterMap id

/-- The error message (if any) that record `r` contributes in the
result-validation loop: its stored chunk error when the truthiness test
accepts it (the message is non-empty), or the missing-or-empty-file
downgrade when validation of a truthy reported artifact fails.  A record
whose error message is `some ""` contributes nothing. -/
def scanError (fileOk : String → Bool) (r : ChunkRecord) : Option String :=
  if r.error.getD "" ≠ "" then some (chunkFailMsg r.index (r.error.getD ""))
  else if r.artifact.getD "" ≠ "" then
    if fileOk (r.artifact.getD "") then none
    else some (missingFileMsg r.index (r.artifact.getD ""))
  else none

/-- Record `r` contributes a validated artifact to the manifest: its error
is falsy (absent or empty), its artifact path is truthy, and the file
validation accepts it. -/
def recValid (fileOk : String → Bool) (r : ChunkRecord) : Bool :=
  r.error.getD "" == "" && !(r.artifact.getD "" == "") && fileOk (r.artifact.getD "")

/-- A terminal message posted to the GUI queue: `('success', path)` or
`('error', message)`. -/
inductive FinalEvent where
  | success (outFile : String)
  | error (msg : String)
deriving DecidableEq

/-- The observable outcome of one run of the pipeline body. -/
structure BodyResult where
  results : List ChunkRecord
  registered : List String
  mergeInvoked : Bool
  events : List FinalEvent
  cleanupCalled : Bool
  raised : Bool
deriving DecidableEq

/-- `f"ffmpeg merge process timed out after 2 minutes."` plus the stderr
snippet (line 887-889). -/
def timeoutMsg (stderr : String) : String :=
  "ffmpeg merge process timed out after 2 minutes." ++
    "\nffmpeg stderr (if any):\n" ++ stderr.take 500 ++ "..."

/-- The nonzero-exit error event text (line 902). -/
def mergeFailMsg (stderr : String) : String :=
  "ffmpeg merge failed. Check console/log.\nError (from ffmpeg):\n" ++
    stderr.take 500 ++ "..."

/-- `run_conversion_concurrent_ffmpeg` (`TTSApp.py` lines 686-930) as a
function of the run environment.  Every early `return` of the source is a
branch here; `cleanupCalled` records whether the final
`self._cleanup_temp_files(temp_file_paths_to_clean)` (or the one on the
early paths, lines 751/758/767/817) ran before the function ended, and
`raised = true` models an unexpected exception escaping the body after the
tasks completed (there is no enclosing `try` inside the body, so such an
exception skips the cleanup call and is caught only by
`run_conversion_wrapper`). -/
def run_conversion_concurrent_ffmpeg (env : RunEnv) : BodyResult :=
  let n := env.chunks.length
  if env.closing0 then ⟨initialRecords n, [], false, [], false, false⟩
  else
    match env.closingCreate with
    | some _ => ⟨initialRecords n, [], false, [], true, false⟩
    | none =>
      if n = 0 then ⟨[], [], false, [], true, false⟩
      else
        let results := writeResults n (taskSlot env) env.completionOrder
        let registered := registeredPaths env
        if env.closingAfterGather then ⟨results, registered, false, [], true, false⟩
        else if env.raiseInResults then ⟨results, registered, false, [], false, true⟩
        else
          let st := process_results env.fileOk n results
          let valid := valid_files_to_merge st
          if st.allOk && !valid.isEmpty then
            if !env.ffmpegAvailable then
              ⟨results, registered, false,
                [.error "ffmpeg path could not be determined. Cannot merge audio."],
                true, false⟩
            else if env.merge.2 then
              ⟨results, registered, false,
                [.error ("Error preparing or running merge: " ++ env.excMsg)], true, false⟩
            else
              match env.merge.1 with
              | none =>
                ⟨results, registered, true,
                  [.error (timeoutMsg ""), .error (mergeFailMsg "")], true, false⟩
              | some (code, stderr) =>
                if code = 0 then
                  ⟨results, registered, true, [.success env.outFile], true, false⟩
                else
                  ⟨results, registered, true, [.error (mergeFailMsg stderr)],
                    true, false⟩
          else if valid.isEmpty && st.allOk then
            ⟨results, registered, false,
              [.error "No audio data generated from input. File might be empty or contain only whitespace."],
              true, false⟩
          else
            ⟨results, registered, false,
              [.error (st.firstError.getD "An unknown error occurred during chunk processing, or no audio was generated.")],
              true, false⟩

/-- `_cleanup_temp_files` (`TTSApp.py` lines 933-944) acting on the
filesystem: for each registered path that exists, attempt `os.remove`; a
failed removal is logged and skipped, never propagated. -/
def cleanup_temp_files (removeOk : String → Bool) (paths : List String)
    (fs : String → Bool) : String → Bool :=
  paths.foldl
    (fun fs p => if fs p && removeOk p then (fun q => if q = p then false else fs q) else fs)
    fs

/-- Whether path `p` still exists on disk once the run has fully
terminated: the files the tasks created, minus what the final cleanup pass
(when it ran) removed. -/
def finalExists (env : RunEnv) (p : String) : Bool :=
  let b := run_conversion_concurrent_ffmpeg env
  let fs0 : String → Bool := fun q => (createdPaths env).contains q
  (if b.cleanupCalled then cleanup_temp_files env.removeOk b.registered fs0 else fs0) p

/-- `run_conversion_wrapper` (`TTSApp.py` lines 668-683): an exception
escaping the pipeline body is caught here and turned into an
`('error', f"Unexpected async error: {e}")` message — the wrapper has no
access to `temp_file_paths_to_clean` and performs no file cleanup. -/
def run_conversion_wrapper (env : RunEnv) : BodyResult :=
  let b := run_conversion_concurrent_ffmpeg env
  if b.raised then
    ⟨b.results, b.registered, b.mergeInvoked,
      b.events ++ [.error ("Unexpected async error: " ++ env.excMsg)],
      b.cleanupCalled, b.raised⟩
  else b

/-! ## The semaphore discipline of the task pool -/

/-- `MAX_CONCURRENT_TASKS` (`TTSApp.py` line 33). -/
def MAX_CONCURRENT_TASKS : Nat := 10

/-- The lifecycle position of one chunk task relative to the semaphore:
not yet at the `async with semaphore` (line 715), holding the semaphore
(and hence allowed to invoke the synthesis adapter), or finished with it. -/
inductive TaskPhase where
  | notStarted
  | inCall
  | done
deriving DecidableEq

/-- The shared state of the task pool: the semaphore counter and the phase
of every task. -/
structure SemState where
  sem : Nat
  phases : List TaskPhase

/-- The two atomic transitions of the pool: a task acquires the semaphore
(`async with semaphore` entry, only possible while the counter is
positive) and a task releases it on leaving the `async with` block,
success or failure alike. -/
inductive SemStep : SemState → SemState → Prop
  | acquire (s : SemState) (i : Nat) (hi : i < s.phases.length)
      (hph : s.phases.getD i .done = .notStarted) (hsem : 0 < s.sem) :
      SemStep s ⟨s.sem - 1, s.phases.set i .inCall⟩
  | release (s : SemState) (i : Nat) (hi : i < s.phases.length)
      (hph : s.phases.getD i .done = .inCall) :
      SemStep s ⟨s.sem + 1, s.phases.set i .done⟩

/-- The initial pool state: `asyncio.Semaphore(K)` (line 692) and `n`
tasks none of which has reached the semaphore. -/
def semInit (n K : Nat) : SemState :=
  ⟨K, List.replicate n .notStarted⟩

/-- A pool state reachable during a run with `n` tasks and limit `K`. -/
def semReachable (n K : Nat) (s : SemState) : Prop :=
  Relation.ReflTransGen SemStep (semInit n K) s

/-- Number of tasks currently holding the semaphore, i.e. currently
allowed to have a synthesis call in flight. -/
def inFlight (s : SemState) : Nat :=
  s.phases.countP (fun ph => ph == TaskPhase.inCall)

/-! ## The progress / ETA estimator -/

/-- Mean of a list of rationals (`statistics.mean`). -/
def listMean (l : List ℚ) : ℚ := l.sum / l.length

/-- The ETA display state produced by one progress tick: the distinct
indeterminate state (`"ETA: Calculating..."`), the pre-first-completion
state, the all-chunks-done state, or a numeric estimate in seconds (with
`withMargin` recording whether a ± confidence margin was appended, which
requires at least two samples). -/
inductive EtaDisplay where
  | calculating
  | starting
  | finalizing
  | estimate (seconds : ℚ) (withMargin : Bool)
deriving DecidableEq

/-- `update_progress_display` (`TTSApp.py` lines 391-448), restricted to
the ETA computation over exact rationals (the source works in floats).
Returns `none` for the source's early return on `total_chunks == 0`. -/
def update_progress_display (startTimeSet isConverting : Bool) (chunk_times : List ℚ)
    (completed total K : Nat) : Option EtaDisplay :=
  if total = 0 then none
  else
    let cc := min completed total
    some
      (if startTimeSet && decide (0 < cc) && decide (cc < total) then
        if 0 < chunk_times.length then
          EtaDisplay.estimate (listMean chunk_times * ((total - cc : Nat) : ℚ) / (K : ℚ))
            (decide (1 < chunk_times.length))
        else EtaDisplay.calculating
      else if cc = 0 && isConverting then EtaDisplay.starting
      else if cc = total && isConverting then EtaDisplay.finalizing
      else EtaDisplay.calculating)

/-- The `'progress_update'` handler of `process_queue` (`TTSApp.py` lines
338-343): the completion counter always advances, and only a present,
strictly positive duration is recorded into `chunk_times`. -/
def process_queue_progress_update (chunk_times : List ℚ) (completed : Nat)
    (dur : Option ℚ) : List ℚ × Nat :=
  match dur with
  | some d => (if 0 < d then chunk_times ++ [d] else chunk_times, completed + 1)
  | none => (chunk_times, completed + 1)

/-! ## Auxiliary predicates and concrete example inputs -/

/-- The last character of `c` is a sentence-ending punctuation. -/
def lastIsPunct (c : List Char) : Bool :=
  !c.isEmpty &&
    (c.getD (c.length - 1) ' ' == '.' || c.getD (c.length - 1) ' ' == '?' ||
      c.getD (c.length - 1) ' ' == '!')

/-- The two characters before the final character of `c` are letters whose
first is uppercase — the shape the abbreviation heuristic rejects when the
final character is a punctuation break. -/
def endAbbrevPattern (c : List Char) : Bool :=
  decide (3 ≤ c.length) && pyIsAlpha (c.getD (c.length - 3) ' ') &&
    pyIsAlpha (c.getD (c.length - 2) ' ') && pyIsUpper (c.getD (c.length - 3) ' ')

/-- The invariant satisfied by every chunk `split_text_simple` emits (for
`maxLen ≥ 1`): nonempty, already stripped, free of the paragraph
separator, and either within the length bound or (a sentence cut may
overshoot by the 50-character lookahead) at most `maxLen + 50` long,
ending in a punctuation break that re-splitting will accept again. -/
def goodChunk (maxLen : Nat) (c : List Char) : Prop :=
  c ≠ [] ∧ pyStrip c = c ∧ findSub nlnl c = none ∧
    (c.length ≤ maxLen ∨
      (c.length ≤ maxLen + 50 ∧ lastIsPunct c = true ∧
        (c.length ≤ 3 ∨ endAbbrevPattern c = false)))

/-- C8 / C10 example text. -/
def cexPara : List Char := "ab. cd.x hi".toList

/-- C8 amended-claim witness text. -/
def paraB : List Char := "abcdefg. hi".toList

/-- C1 witness: every chunk task succeeds and reports its temp file. -/
def resW : Nat → Option ChunkRecord :=
  fun i => some ⟨i, some (tempPath i), none, some 1⟩

/-- C3 counterexample environment: a one-chunk run during which an
unexpected exception escapes the result-processing code of the pipeline
body. -/
def envRaise : RunEnv :=
  ⟨[['a']], "out.mp3", false, none, fun _ => TaskBehavior.adapter (.ok 1), [0],
    false, fun _ => true, fun _ => true, true, (some (0, ""), false), true, "boom"⟩

/-- C3 amended-claim witness environment: the same one-chunk run with no
escaping exception. -/
def envClean : RunEnv :=
  ⟨[['a']], "out.mp3", false, none, fun _ => TaskBehavior.adapter (.ok 1), [0],
    false, fun _ => true, fun _ => true, true, (some (0, ""), false), false, ""⟩

/-- C6 environment: a single whitespace-only chunk; the adapter outcome is
irrelevant because the blank-text short-circuit fires, and the created
temp file stays empty so the validation check `exists ∧ size > 0` fails. -/
def envBlank : RunEnv :=
  ⟨[[' ']], "out.mp3", false, none, fun _ => TaskBehavior.adapter (.error "unused"),
    [0], false, fun _ => false, fun _ => true, true, (some (0, ""), false), false, ""⟩

/-- C7 counterexample environment: the run is externally marked cancelled,
so the single task observes `self.closing` at entry and is skipped; the
orchestrator then returns at the post-gather closing check. -/
def envSkip : RunEnv :=
  ⟨[['a']], "out.mp3", false, none, fun _ => TaskBehavior.skippedAtEntry, [0],
    true, fun _ => true, fun _ => true, true, (some (0, ""), false), false, ""⟩

/-- C7 amended-claim witness environment: the task observes the closing
flag just after acquiring the semaphore. -/
def envCancelSem : RunEnv :=
  ⟨[['a']], "out.mp3", false, none, fun _ => TaskBehavior.cancelledAfterSem, [0],
    true, fun _ => true, fun _ => true, true, (some (0, ""), false), false, ""⟩

/-- C4 witness environment: three chunks, chunk 1 fails, tasks complete in
the order 2, 0, 1. -/
def envOneFail : RunEnv :=
  ⟨[['a'], ['b'], ['c']], "out.mp3", false, none,
    fun i => if i = 1 then TaskBehavior.adapter (.error "boom")
      else TaskBehavior.adapter (.ok 1),
    [2, 0, 1], false, fun _ => true, fun _ => true, true, (some (0, ""), false),
    false, ""⟩

/-- C4 counterexample environment: two chunks; chunk 1's synthesis call
fails with an exception whose message is the empty string (`str(e) == ""`,
as for a bare `TimeoutError`), so its slot stores the error `some ""`. -/
def envEmptyErr : RunEnv :=
  ⟨[['a'], ['b']], "out.mp3", false, none,
    fun i => if i = 1 then TaskBehavior.adapter (.error "")
      else TaskBehavior.adapter (.ok 1),
    [0, 1], false, fun _ => true, fun _ => true, true, (some (0, ""), false),
    false, ""⟩

/-- The element of the filled `results_data` array at index `j`: the
record task `j` wrote, or the untouched initial entry. -/
def finalRec (res : Nat → Option ChunkRecord) (j : Nat) : ChunkRecord :=
  (res j).getD ⟨j, none, none, none⟩

/-- `env` with its `os.remove` success oracle replaced (used to state that
removal failures never change the run's outcome). -/
def setRemoveOk (env : RunEnv) (rok : String → Bool) : RunEnv :=
  ⟨env.chunks, env.outFile, env.closing0, env.closingCreate, env.behavior,
    env.completionOrder, env.closingAfterGather, env.fileOk, rok,
    env.ffmpegAvailable, env.merge, env.raiseInResults, env.excMsg⟩

/-! # Theorems -/

/-! ## Generic list lemmas -/

theorem countP_set_balance {α : Type} (p : α → Bool) :
    ∀ (l : List α) (i : Nat) (a : α), i < l.length →
      (l.set i a).countP p + (if p (l.getD i a) then 1 else 0) =
        l.countP p + (if p a then 1 else 0)
  | [], i, a, h => by simp at h
  | x :: t, 0, a, h => by
    simp only [List.set_cons_zero, List.countP_cons, List.getD_cons_zero]
    omega
  | x :: t, i + 1, a, h => by
    simp only [List.set_cons_succ, List.countP_cons, List.getD_cons_succ]
    have := countP_set_balance p t i a (by simpa using h)
    omega

theorem foldl_max_spec :
    ∀ (l : List Nat) (a : Nat),
      (l.foldl max a = a ∨ l.foldl max a ∈ l) ∧ a ≤ l.foldl max a ∧
        ∀ x ∈ l, x ≤ l.foldl max a
  | [], a => by simp
  | x :: t, a => by
    obtain ⟨h1, h2, h3⟩ := foldl_max_spec t (max a x)
    refine ⟨?_, ?_, ?_⟩
    · rcases h1 with h | h
      · rcases max_choice a x with hm | hm
        · exact Or.inl (by rw [List.foldl_cons, h, hm])
        · exact Or.inr (by rw [List.foldl_cons, h, hm]; exact List.mem_cons_self x t)
      · exact Or.inr (by rw [List.foldl_cons]; exact List.mem_cons_of_mem _ h)
    · calc a ≤ max a x := le_max_left _ _
        _ ≤ _ := by simpa [List.foldl_cons] using h2
    · intro y hy
      rcases List.mem_cons.mp hy with rfl | hy
      · calc y ≤ max a y := le_max_right _ _
          _ ≤ _ := by simpa [List.foldl_cons] using h2
      · simpa [List.foldl_cons] using h3 y hy

theorem max?_spec (l : List Nat) (m : Nat) (h : l.max? = some m) :
    m ∈ l ∧ ∀ x ∈ l, x ≤ m := by
  cases l with
  | nil => simp [List.max?] at h
  | cons a t =>
    simp only [List.max?] at h
    obtain ⟨h1, h2, h3⟩ := foldl_max_spec t a
    cases h
    constructor
    · rcases h1 with h | h
      · rw [h]; exact List.mem_cons_self a t
      · exact List.mem_cons_of_mem _ h
    · intro x hx
      rcases List.mem_cons.mp hx with rfl | hx
      · exact h2
      · exact h3 x hx

theorem max?_eq_some_of (l : List Nat) (m : Nat) (hm : m ∈ l)
    (hle : ∀ x ∈ l, x ≤ m) : l.max? = some m := by
  cases l with
  | nil => simp at hm
  | cons a t =>
    simp only [List.max?, Option.some.injEq]
    obtain ⟨h1, h2, h3⟩ := foldl_max_spec t a
    have hfm : t.foldl max a ≤ m := by
      rcases h1 with h | h
      · rw [h]; exact hle a (List.mem_cons_self a t)
      · exact hle _ (List.mem_cons_of_mem _ h)
    have hmf : m ≤ t.foldl max a := by
      rcases List.mem_cons.mp hm with rfl | h
      · exact h2
      · exact h3 _ h
    omega

/-! ## `rfind` and `best_break` characterisation -/

theorem pyRfind_some {l : List Char} {c : Char} {start stop i : Nat}
    (h : pyRfind l c start stop = some i) :
    start ≤ i ∧ i < min stop l.length ∧ l.getD i ' ' = c ∧
      ∀ j, start ≤ j → j < min stop l.length → l.getD j ' ' = c → j ≤ i := by
  unfold pyRfind at h
  obtain ⟨hmem, hmax⟩ := max?_spec _ _ h
  simp only [List.mem_filter, List.mem_range, Bool.and_eq_true, decide_eq_true_eq,
    beq_iff_eq] at hmem
  refine ⟨hmem.2.1, hmem.1, hmem.2.2, ?_⟩
  intro j hj1 hj2 hj3
  exact hmax j (by
    simp only [List.mem_filter, List.mem_range, Bool.and_eq_true, decide_eq_true_eq,
      beq_iff_eq]
    exact ⟨hj2, hj1, hj3⟩)

theorem pyRfind_eq_some {l : List Char} {c : Char} {start stop i : Nat}
    (h1 : start ≤ i) (h2 : i < min stop l.length) (h3 : l.getD i ' ' = c)
    (h4 : ∀ j, i < j → j < min stop l.length → l.getD j ' ' ≠ c) :
    pyRfind l c start stop = some i := by
  unfold pyRfind
  apply max?_eq_some_of
  · simp only [List.mem_filter, List.mem_range, Bool.and_eq_true, decide_eq_true_eq,
      beq_iff_eq]
    exact ⟨h2, h1, h3⟩
  · intro x hx
    simp only [List.mem_filter, List.mem_range, Bool.and_eq_true, decide_eq_true_eq,
      beq_iff_eq] at hx
    by_contra hlt
    exact h4 x (by omega) hx.1 hx.2.2

theorem best_break_eq_max? (p : List Char) (start maxLen : Nat) :
    best_break p start maxLen = (codeCandidates p start maxLen).max? := by
  unfold best_break codeCandidates
  cases h1 : punctCandidate p start maxLen '.' <;>
    cases h2 : punctCandidate p start maxLen '?' <;>
      cases h3 : punctCandidate p start maxLen '!' <;>
        simp [h1, h2, h3, List.max?, List.filterMap]

theorem punctCandidate_spec {p : List Char} {start maxLen : Nat} {ch : Char} {b : Nat}
    (h : punctCandidate p start maxLen ch = some b) :
    p.getD b ' ' = ch ∧ start < b ∧ b < min (start + maxLen + 50) p.length ∧
      boundaryOK p b = true ∧ abbrevSkip p start b = false ∧
      ∀ j, b < j → j < min (start + maxLen + 50) p.length → p.getD j ' ' ≠ ch := by
  unfold punctCandidate at h
  cases hr : pyRfind p ch start (min (start + maxLen + 50) p.length) with
  | none => rw [hr] at h; exact absurd h (by simp)
  | some i =>
    rw [hr] at h
    dsimp only at h
    by_cases hc : (decide (start < i) && boundaryOK p i && !abbrevSkip p start i) = true
    · rw [if_pos hc] at h
      cases h
      obtain ⟨hr1, hr2, hr3, hr4⟩ := pyRfind_some hr
      simp only [min_assoc, min_self] at hr2 hr4
      simp only [Bool.and_eq_true, decide_eq_true_eq, Bool.not_eq_true'] at hc
      refine ⟨hr3, hc.1.1, hr2, hc.1.2, hc.2, ?_⟩
      intro j hj1 hj2 hj3
      exact absurd (hr4 j (by omega) hj2 hj3) (by omega)
    · rw [if_neg hc] at h
      exact absurd h (by simp)

theorem codeCandidates_mem {p : List Char} {start maxLen : Nat} {b : Nat} :
    b ∈ codeCandidates p start maxLen ↔
      ∃ ch, ch ∈ [('.' : Char), '?', '!'] ∧ punctCandidate p start maxLen ch = some b := by
  unfold codeCandidates
  simp [List.mem_filterMap]

/-! ## C2: the semaphore bounds the number of in-flight calls -/

theorem countP_inCall_replicate (n : Nat) :
    (List.replicate n TaskPhase.notStarted).countP (fun ph => ph == TaskPhase.inCall) = 0 := by
  rw [List.countP_eq_zero]
  intro a ha
  rw [List.eq_of_mem_replicate ha]
  decide

theorem semStep_invariant {K : Nat} {s t : SemState} (hst : SemStep s t)
    (hinv : s.sem + inFlight s = K) : t.sem + inFlight t = K := by
  cases hst with
  | acquire i hi hph hsem =>
    have hb := countP_set_balance (fun ph => ph == TaskPhase.inCall) s.phases i
      TaskPhase.inCall hi
    have hd : s.phases.getD i TaskPhase.inCall = s.phases.getD i TaskPhase.done := by
      rw [List.getD_eq_getElem _ _ hi, List.getD_eq_getElem _ _ hi]
    rw [hd, hph] at hb
    simp only [inFlight] at hinv ⊢
    simp at hb
    show s.sem - 1 + List.countP (fun ph => ph == TaskPhase.inCall)
      (s.phases.set i TaskPhase.inCall) = K
    omega
  | release i hi hph =>
    have hb := countP_set_balance (fun ph => ph == TaskPhase.inCall) s.phases i
      TaskPhase.done hi
    rw [hph] at hb
    simp only [inFlight] at hinv ⊢
    simp at hb
    show s.sem + 1 + List.countP (fun ph => ph == TaskPhase.inCall)
      (s.phases.set i TaskPhase.done) = K
    omega

/-- C2: for every run with concurrency limit `K`, in every reachable state
of the task pool at most `K` tasks hold the counting semaphore, hence at
most `K` synthesis calls are in flight simultaneously: each task acquires
a slot (`async with semaphore`, line 715) before invoking the adapter and
releases it on completion, success or failure alike. -/
theorem C2_concurrency_bound (n K : Nat) (s : SemState)
    (h : semReachable n K s) : inFlight s ≤ K := by
  have hinv : s.sem + inFlight s = K := by
    induction h with
    | refl => simp [semInit, inFlight, countP_inCall_replicate]
    | tail hr hstep ih => exact semStep_invariant hstep ih
  omega

/-- Witness for C2: after one task of three acquires the semaphore
(`K = MAX_CONCURRENT_TASKS`), the in-flight count is within the bound. -/
theorem C2_concurrency_bound_witness :
    inFlight ⟨(semInit 3 MAX_CONCURRENT_TASKS).sem - 1,
      (semInit 3 MAX_CONCURRENT_TASKS).phases.set 0 TaskPhase.inCall⟩ ≤
      MAX_CONCURRENT_TASKS :=
  C2_concurrency_bound 3 MAX_CONCURRENT_TASKS _
    (Relation.ReflTransGen.single
      (SemStep.acquire (semInit 3 MAX_CONCURRENT_TASKS) 0 (by decide) (by decide)
        (by decide)))

/-! ## C5: the ETA formula -/

theorem listMean_replicate (m : Nat) (d : ℚ) (hm : 0 < m) :
    listMean (List.replicate m d) = d := by
  unfold listMean
  rw [List.sum_replicate, List.length_replicate, nsmul_eq_mul, mul_comm,
    mul_div_assoc, div_self (by exact_mod_cast hm.ne'), mul_one]

/-- C5: on a progress tick with `0 < c < n` and a nonempty list of recorded
durations, the displayed ETA equals `mean(chunkDurations) * (n - c) / K`
seconds; with constant recorded duration `d` it equals `d * (n - c) / K`
exactly (the model computes in `ℚ`, so the floating-point tolerance of the
claim is an exact equality here); with zero recorded samples the display
is the distinct indeterminate state `calculating`, which is a different
constructor from every numeric estimate; and `process_queue` records only
present, strictly positive durations. -/
theorem C5_eta_formula (isConverting : Bool) (chunk_times : List ℚ) (c n K : Nat)
    (m : Nat) (d : ℚ) (h1 : 0 < c) (h2 : c < n) :
    (chunk_times ≠ [] →
      update_progress_display true isConverting chunk_times c n K =
        some (EtaDisplay.estimate
          (listMean chunk_times * ((n - c : Nat) : ℚ) / (K : ℚ))
          (decide (1 < chunk_times.length)))) ∧
    (0 < m →
      update_progress_display true isConverting (List.replicate m d) c n K =
        some (EtaDisplay.estimate (d * ((n - c : Nat) : ℚ) / (K : ℚ))
          (decide (1 < m)))) ∧
    update_progress_display true isConverting [] c n K = some EtaDisplay.calculating ∧
    (∀ t : ℚ, t ≤ 0 →
      process_queue_progress_update chunk_times c (some t) = (chunk_times, c + 1)) ∧
    (∀ q b, EtaDisplay.calculating ≠ EtaDisplay.estimate q b) := by
  have hn : n ≠ 0 := by omega
  have hmin : min c n = c := by omega
  refine ⟨?_, ?_, ?_, ?_, ?_⟩
  · intro hne
    have hlen : 0 < chunk_times.length := List.length_pos.mpr hne
    simp [update_progress_display, hn, hmin, h1, h2, hlen]
  · intro hm
    have hlen : 0 < (List.replicate m d).length := by simpa using hm
    have hm0 : m ≠ 0 := hm.ne'
    simp [update_progress_display, hn, hmin, h1, h2, hlen, hm0,
      listMean_replicate m d hm]
  · simp [update_progress_display, hn, hmin, h1, h2]
  · intro t ht
    simp [process_queue_progress_update, not_lt.mpr ht]
  · intro q b h
    exact EtaDisplay.noConfusion h

/-- Witness for C5: three chunks, one completed, a single recorded
duration of 2 seconds, limit 10. -/
theorem C5_eta_formula_witness :
    update_progress_display true true [(2 : ℚ)] 1 3 10 =
      some (EtaDisplay.estimate (listMean [(2 : ℚ)] * ((3 - 1 : Nat) : ℚ) / (10 : ℚ))
        (decide (1 < [(2 : ℚ)].length))) :=
  (C5_eta_formula true [(2 : ℚ)] 1 3 10 1 2 (by decide) (by decide)).1 (by decide)

/-! ## C6: the whitespace-chunk short-circuit records an artifact -/

/-- C6 (code bug evidence): for a whitespace-only chunk the worker makes no
synthesis call and reports an immediate success with zero duration, but —
contrary to the claim and to the source's own comment at line 801, which
expects `(index, None, None, ...)` for an empty chunk — it records the
pre-allocated (empty) temp file as the artifact path, so the later
validation (`exists ∧ size > 0`) downgrades the chunk to a failure and the
whole run fails instead of treating it as a trivial success. -/
theorem C6_blank_chunk_artifact :
    (process_single_chunk envBlank 0).adapterCalled = false ∧
    (process_single_chunk envBlank 0).slot =
      some ⟨0, some (tempPath 0), none, some 0⟩ ∧
    (run_conversion_concurrent_ffmpeg envBlank).events =
      [.error (missingFileMsg 0 (tempPath 0))] ∧
    (run_conversion_concurrent_ffmpeg envBlank).mergeInvoked = false := by decide

/-! ## C7: cancellation -/

/-- C7 (counterexample): in a run that is externally marked cancelled, a
task that observes the closing flag at entry is skipped without invoking
the adapter, but its `results_data` slot keeps the initial
`(index, None, None, None)` — it does **not** carry a "cancelled" error. -/
theorem C7_skipped_task_no_error :
    (run_conversion_concurrent_ffmpeg envSkip).results = [⟨0, none, none, none⟩] ∧
    (process_single_chunk envSkip 0).adapterCalled = false := by decide

/-- C7 (amended): a task skipped at entry makes no adapter call and writes
no result at all (its slot keeps the initial record with no error), while
a task that observes cancellation after acquiring the semaphore makes no
adapter call and records the error "Cancelled during semaphore wait";
in-flight adapter calls are never forcibly interrupted (the model has no
transition that aborts a running call). -/
theorem C7_cancellation_amended (env : RunEnv) (i : Nat) :
    (env.behavior i = TaskBehavior.skippedAtEntry →
      process_single_chunk env i = ⟨none, false, false⟩) ∧
    (env.behavior i = TaskBehavior.cancelledAfterSem →
      process_single_chunk env i =
        ⟨some ⟨i, none, some "Cancelled during semaphore wait", none⟩,
          true, false⟩) := by
  constructor <;> intro h <;> simp [process_single_chunk, h]

/-- Witness for C7 (amended): the semaphore-stage cancellation in
`envCancelSem`. -/
theorem C7_cancellation_amended_witness :
    process_single_chunk envCancelSem 0 =
      ⟨some ⟨0, none, some "Cancelled during semaphore wait", none⟩,
        true, false⟩ :=
  (C7_cancellation_amended envCancelSem 0).2 rfl

/-! ## Filling the pre-sized result array is completion-order independent -/

theorem foldl_write_getElem? (res : Nat → Option ChunkRecord) :
    ∀ (order : List Nat) (arr : List ChunkRecord), order.Nodup →
      (∀ i ∈ order, i < arr.length) → ∀ j : Nat,
      (order.foldl
        (fun arr i =>
          match res i with
          | some r => arr.set i r
          | none => arr) arr)[j]? =
        if j ∈ order then
          match res j with
          | some r => some r
          | none => arr[j]?
        else arr[j]?
  | [], arr, _, _, j => by simp
  | i :: rest, arr, hnd, hbd, j => by
    have hnd' := hnd
    rw [List.nodup_cons] at hnd'
    obtain ⟨hni, hndr⟩ := hnd'
    have harr' :
        ∀ k ∈ rest,
          k < ((match res i with
            | some r => arr.set i r
            | none => arr) : List ChunkRecord).length := by
      intro k hk
      have := hbd k (List.mem_cons_of_mem _ hk)
      cases res i <;> simpa [List.length_set]
    rw [List.foldl_cons, foldl_write_getElem? res rest _ hndr harr' j]
    by_cases hjr : j ∈ rest
    · have hji : j ≠ i := fun h => hni (h ▸ hjr)
      simp only [hjr, if_true, List.mem_cons, hjr, or_true, if_true]
      cases hres : res j with
      | some r => rfl
      | none => cases hresi : res i with
        | some ri => exact List.getElem?_set_ne (fun h => hji h.symm)
        | none => rfl
    · by_cases hji : j = i
      · subst hji
        simp only [hjr, if_false, List.mem_cons, true_or, if_true]
        cases hres : res j with
        | some r => exact List.getElem?_set_self (hbd j (List.mem_cons_self _ _))
        | none => rfl
      · simp only [hjr, if_false, List.mem_cons, hji, false_or, if_false]
        cases hresi : res i with
        | some ri => exact List.getElem?_set_ne (fun h => hji h.symm)
        | none => rfl

theorem initialRecords_getElem? (n j : Nat) :
    (initialRecords n)[j]? = if j < n then some ⟨j, none, none, none⟩ else none := by
  unfold initialRecords
  by_cases hj : j < n
  · rw [List.getElem?_map, List.getElem?_range hj]
    simp [hj]
  · rw [List.getElem?_map, List.getElem?_eq_none (by simpa using not_lt.mp hj)]
    simp [hj]

theorem writeResults_perm (n : Nat) (res : Nat → Option ChunkRecord)
    (order : List Nat) (hp : order.Perm (List.range n)) :
    writeResults n res order = (List.range n).map (finalRec res) := by
  apply List.ext_getElem?
  intro j
  have hnd : order.Nodup := hp.symm.nodup (List.nodup_range n)
  have hmem : ∀ i, i ∈ order ↔ i < n := by
    intro i
    rw [hp.mem_iff, List.mem_range]
  have hbd : ∀ i ∈ order, i < (initialRecords n).length := by
    intro i hi
    simpa [initialRecords] using (hmem i).mp hi
  unfold writeResults
  rw [foldl_write_getElem? res order (initialRecords n) hnd hbd j]
  by_cases hj : j < n
  · simp only [(hmem j).mpr hj, if_true]
    rw [List.getElem?_map, List.getElem?_range hj]
    cases hres : res j with
    | some r => simp [finalRec, hres]
    | none => simp [finalRec, hres, initialRecords_getElem?, hj]
  · have : ¬ j ∈ order := fun h => hj ((hmem j).mp h)
    simp only [this, if_false]
    rw [initialRecords_getElem?, List.getElem?_map,
      List.getElem?_eq_none (by simpa using not_lt.mp hj)]
    simp [hj]

/-! ## The result-validation scan -/

theorem scanStep_successful_length (fileOk : String → Bool) (st : MergeScanState)
    (r : ChunkRecord) :
    ((scanStep fileOk st r).successful).length = st.successful.length := by
  unfold scanStep
  repeat' split
  all_goals simp [List.length_set]

theorem scan_successful_length (fileOk : String → Bool) :
    ∀ (rs : List ChunkRecord) (st : MergeScanState),
      ((rs.foldl (scanStep fileOk) st).successful).length = st.successful.length
  | [], st => rfl
  | r :: rest, st => by
    rw [List.foldl_cons, scan_successful_length fileOk rest _,
      scanStep_successful_length]

theorem scanStep_firstError (fileOk : String → Bool) (st : MergeScanState)
    (r : ChunkRecord) :
    (scanStep fileOk st r).firstError =
      match st.firstError with
      | some m => some m
      | none => scanError fileOk r := by
  unfold scanStep scanError
  by_cases he : r.error.getD "" ≠ ""
  · rw [if_pos he, if_pos he]
    cases st.firstError <;> simp
  · rw [if_neg he, if_neg he]
    by_cases hp : r.artifact.getD "" ≠ ""
    · rw [if_pos hp, if_pos hp]
      by_cases hok : fileOk (r.artifact.getD "")
      · rw [if_pos hok, if_pos hok]
        cases st.firstError <;> rfl
      · rw [if_neg hok, if_neg hok]
        cases st.firstError <;> simp
    · rw [if_neg hp, if_neg hp]
      cases st.firstError <;> rfl

theorem scanStep_allOk (fileOk : String → Bool) (st : MergeScanState)
    (r : ChunkRecord) :
    (scanStep fileOk st r).allOk = (st.allOk && (scanError fileOk r).isNone) := by
  unfold scanStep scanError
  by_cases he : r.error.getD "" ≠ ""
  · rw [if_pos he, if_pos he]
    simp
  · rw [if_neg he, if_neg he]
    by_cases hp : r.artifact.getD "" ≠ ""
    · rw [if_pos hp, if_pos hp]
      by_cases hok : fileOk (r.artifact.getD "")
      · rw [if_pos hok, if_pos hok]
        simp
      · rw [if_neg hok, if_neg hok]
        simp
    · rw [if_neg hp, if_neg hp]
      simp

theorem scan_firstError (fileOk : String → Bool) :
    ∀ (rs : List ChunkRecord) (st : MergeScanState),
      (rs.foldl (scanStep fileOk) st).firstError =
        match st.firstError with
        | some m => some m
        | none => (rs.filterMap (scanError fileOk)).head?
  | [], st => by simp only [List.foldl_nil]; cases st.firstError <;> rfl
  | r :: rest, st => by
    rw [List.foldl_cons, scan_firstError fileOk rest _, scanStep_firstError]
    cases hf : st.firstError with
    | some m => rfl
    | none =>
      cases he : scanError fileOk r with
      | some m => simp [List.filterMap_cons, he]
      | none => simp [List.filterMap_cons, he]

theorem scan_allOk (fileOk : String → Bool) :
    ∀ (rs : List ChunkRecord) (st : MergeScanState),
      (rs.foldl (scanStep fileOk) st).allOk =
        (st.allOk && rs.all (fun r => (scanError fileOk r).isNone))
  | [], st => by simp
  | r :: rest, st => by
    rw [List.foldl_cons, scan_allOk fileOk rest _, scanStep_allOk]
    simp [Bool.and_assoc]

theorem scanStep_successful_getElem?_of_false (fileOk : String → Bool)
    (st : MergeScanState) (r : ChunkRecord) (j : Nat)
    (hp : (r.index == j && recValid fileOk r) = false) :
    ((scanStep fileOk st r).successful)[j]? = st.successful[j]? := by
  unfold scanStep
  by_cases he : r.error.getD "" ≠ ""
  · rw [if_pos he]
  · rw [if_neg he]
    by_cases hp2 : r.artifact.getD "" ≠ ""
    · rw [if_pos hp2]
      by_cases hok : fileOk (r.artifact.getD "")
      · rw [if_pos hok]
        have hv : recValid fileOk r = true := by
          simp [recValid, not_not.mp he, hp2, hok]
        rw [hv, Bool.and_true, beq_eq_false_iff_ne] at hp
        exact List.getElem?_set_ne hp
      · rw [if_neg hok]
    · rw [if_neg hp2]

theorem recValid_artifact {fileOk : String → Bool} {r : ChunkRecord}
    (h : recValid fileOk r = true) : r.artifact = some (r.artifact.getD "") := by
  unfold recValid at h
  cases ha : r.artifact with
  | none =>
    rw [ha] at h
    simp at h
  | some p => rfl

theorem scan_successful_getElem? (fileOk : String → Bool) :
    ∀ (rs : List ChunkRecord) (st : MergeScanState),
      (rs.map (fun r => r.index)).Nodup →
      (∀ r ∈ rs, r.index < st.successful.length) → ∀ j : Nat,
      ((rs.foldl (scanStep fileOk) st).successful)[j]? =
        match rs.find? (fun r => r.index == j && recValid fileOk r) with
        | some r => some r.artifact
        | none => st.successful[j]?
  | [], st, _, _, j => by simp
  | r :: rest, st, hnd, hbd, j => by
    rw [List.map_cons] at hnd
    have hnir : r.index ∉ rest.map (fun r => r.index) := (List.nodup_cons.mp hnd).1
    have hndr : (rest.map (fun r => r.index)).Nodup := (List.nodup_cons.mp hnd).2
    have hbdr : ∀ x ∈ rest, x.index < ((scanStep fileOk st r).successful).length := by
      intro x hx
      rw [scanStep_successful_length]
      exact hbd x (List.mem_cons_of_mem _ hx)
    rw [List.foldl_cons, scan_successful_getElem? fileOk rest _ hndr hbdr j,
      List.find?_cons]
    cases hp : (r.index == j && recValid fileOk r) with
    | true =>
      have hij : r.index = j := by
        have := (Bool.and_eq_true _ _).mp hp
        exact beq_iff_eq.mp this.1
      have hvr : recValid fileOk r = true := ((Bool.and_eq_true _ _).mp hp).2
      have hfr : rest.find? (fun x => x.index == j && recValid fileOk x) = none := by
        rw [List.find?_eq_none]
        intro x hx hcx
        apply hnir
        have hxj : x.index = j := beq_iff_eq.mp ((Bool.and_eq_true _ _).mp hcx).1
        rw [hij, ← hxj]
        exact List.mem_map_of_mem _ hx
      rw [hfr]
      dsimp only
      have hvr' := hvr
      unfold recValid at hvr'
      simp only [Bool.and_eq_true] at hvr'
      obtain ⟨⟨he1, hp1⟩, hok1⟩ := hvr'
      have he' : r.error.getD "" = "" := beq_iff_eq.mp he1
      have hp' : r.artifact.getD "" ≠ "" := by
        intro h
        rw [h] at hp1
        simp at hp1
      unfold scanStep
      rw [if_neg (not_not.mpr he'), if_pos hp', if_pos hok1]
      dsimp only
      rw [hij]
      rw [List.getElem?_set_self (hij ▸ hbd r (List.mem_cons_self _ _))]
      exact (congrArg some (recValid_artifact hvr)).symm
    | false =>
      dsimp only
      cases hfr : rest.find? (fun x => x.index == j && recValid fileOk x) with
      | some x => rfl
      | none => exact scanStep_successful_getElem?_of_false fileOk st r j hp

theorem find?_indexed (g : Nat → ChunkRecord) (hg : ∀ k, (g k).index = k)
    (fileOk : String → Bool) (j : Nat) :
    ∀ ks : List Nat,
      (ks.map g).find? (fun r => r.index == j && recValid fileOk r) =
        if j ∈ ks ∧ recValid fileOk (g j) = true then some (g j) else none
  | [] => by simp
  | k :: rest => by
    rw [List.map_cons, List.find?_cons]
    by_cases hkj : k = j
    · subst hkj
      cases hv : recValid fileOk (g k) with
      | true => simp [hg k]
      | false => simp [find?_indexed g hg fileOk k rest, hv]
    · have : ((g k).index == j && recValid fileOk (g k)) = false := by
        simp [hg k, hkj]
      rw [this]
      dsimp only
      rw [find?_indexed g hg fileOk j rest]
      have : (j ∈ k :: rest ∧ recValid fileOk (g j) = true) ↔
          (j ∈ rest ∧ recValid fileOk (g j) = true) := by
        constructor
        · rintro ⟨hm, hv⟩
          rcases List.mem_cons.mp hm with rfl | hm
          · exact absurd rfl hkj
          · exact ⟨hm, hv⟩
        · rintro ⟨hm, hv⟩
          exact ⟨List.mem_cons_of_mem _ hm, hv⟩
      rw [if_congr this rfl rfl]

theorem finalRec_index (res : Nat → Option ChunkRecord)
    (hidx : ∀ i r, res i = some r → r.index = i) (j : Nat) :
    (finalRec res j).index = j := by
  unfold finalRec
  cases hr : res j with
  | none => rfl
  | some r => exact hidx j r hr

theorem filterMap_ite {α β : Type} (p : α → Bool) (f : α → β) :
    ∀ l : List α,
      (l.filterMap (fun a => if p a then some (f a) else none)) =
        (l.filter p).map f
  | [] => rfl
  | a :: l => by
    rw [List.filterMap_cons, List.filter_cons]
    cases hp : p a <;> simp [filterMap_ite p f l]

theorem process_results_successful (fileOk : String → Bool) (n : Nat)
    (res : Nat → Option ChunkRecord)
    (hidx : ∀ i r, res i = some r → r.index = i) :
    (process_results fileOk n ((List.range n).map (finalRec res))).successful =
      (List.range n).map
        (fun j => if recValid fileOk (finalRec res j) then (finalRec res j).artifact
          else none) := by
  have hlen : ((process_results fileOk n
      ((List.range n).map (finalRec res))).successful).length = n := by
    unfold process_results
    rw [scan_successful_length]
    simp
  apply List.ext_getElem?
  intro j
  have hidxmap : ((List.range n).map (finalRec res)).map (fun r => r.index) =
      List.range n := by
    rw [List.map_map]
    rw [List.map_congr_left (fun k _ => by
      show (finalRec res k).index = k
      exact finalRec_index res hidx k)]
    exact List.map_id _
  have hnd : (((List.range n).map (finalRec res)).map (fun r => r.index)).Nodup := by
    rw [hidxmap]; exact List.nodup_range n
  have hbd : ∀ r ∈ (List.range n).map (finalRec res),
      r.index < (List.replicate n (none : Option String)).length := by
    intro r hr
    obtain ⟨k, hk, rfl⟩ := List.mem_map.mp hr
    rw [finalRec_index res hidx k, List.length_replicate]
    exact List.mem_range.mp hk
  unfold process_results
  rw [scan_successful_getElem? fileOk _ _ hnd hbd j]
  rw [find?_indexed (finalRec res) (finalRec_index res hidx) fileOk j (List.range n)]
  by_cases hj : j < n
  · rw [List.getElem?_map, List.getElem?_range hj]
    by_cases hv : recValid fileOk (finalRec res j) = true
    · rw [if_pos ⟨List.mem_range.mpr hj, hv⟩]
      simp [hv]
    · rw [if_neg (fun hc => hv hc.2)]
      rw [List.getElem?_replicate, if_pos hj]
      simp [hv]
  · rw [if_neg (fun hc => hj (List.mem_range.mp hc.1))]
    rw [List.getElem?_replicate, if_neg hj, List.getElem?_map,
      List.getElem?_eq_none (by simpa using not_lt.mp hj)]
    rfl

/-- C1: for every run, whatever order the concurrent chunk tasks complete
in (any permutation of the task indices), the pre-sized per-index slot
array ends up identical, and the manifest handed to the merge tool is
exactly the artifact paths of the valid results enumerated in strictly
ascending chunk-index order. -/
theorem C1_manifest_ascending (n : Nat) (res : Nat → Option ChunkRecord)
    (order : List Nat) (fileOk : String → Bool)
    (hperm : order.Perm (List.range n))
    (hidx : ∀ i r, res i = some r → r.index = i) :
    writeResults n res order = (List.range n).map (finalRec res) ∧
    valid_files_to_merge (process_results fileOk n (writeResults n res order)) =
      ((List.range n).filter (fun j => recValid fileOk (finalRec res j))).map
        (fun j => (finalRec res j).artifact.getD "") ∧
    List.Pairwise (fun a b => a < b)
      ((List.range n).filter (fun j => recValid fileOk (finalRec res j))) := by
  have hw := writeResults_perm n res order hperm
  refine ⟨hw, ?_, ?_⟩
  · rw [hw]
    unfold valid_files_to_merge
    rw [process_results_successful fileOk n res hidx]
    rw [List.filterMap_map]
    have hcongr : ∀ j ∈ List.range n,
        (id ∘ fun j => if recValid fileOk (finalRec res j) then (finalRec res j).artifact
          else none) j =
        (fun j => if recValid fileOk (finalRec res j) then
          some ((finalRec res j).artifact.getD "") else none) j := by
      intro j _
      dsimp only [Function.comp, id]
      by_cases hv : recValid fileOk (finalRec res j) = true
      · rw [if_pos hv, if_pos hv, ← recValid_artifact hv]
      · rw [if_neg hv, if_neg hv]
    rw [List.filterMap_congr hcongr]
    exact filterMap_ite _ _ _
  · exact List.Pairwise.sublist (List.filter_sublist _) (List.pairwise_lt_range n)

/-- Witness for C1: two successful chunks written in reversed completion
order still yield the index-ascending manifest. -/
theorem C1_manifest_ascending_witness :
    valid_files_to_merge
      (process_results (fun _ => true) 2 (writeResults 2 resW [1, 0])) =
      ["tmp0", "tmp1"] := by
  have h := C1_manifest_ascending 2 resW [1, 0] (fun _ => true) (by decide)
    (fun i r hr => by
      simp only [resW, Option.some.injEq] at hr
      rw [← hr])
  exact h.2.1.trans (by decide)

/-! ## C4: any chunk error skips the merge and surfaces the first error -/

theorem taskSlot_index (env : RunEnv) (i : Nat) (r : ChunkRecord)
    (h : taskSlot env i = some r) : r.index = i := by
  unfold taskSlot process_single_chunk at h
  cases hb : env.behavior i <;> rw [hb] at h <;> dsimp only at h
  · exact absurd h (by simp)
  · cases h; rfl
  · cases h; rfl
  · cases h; rfl

theorem head?_filterMap_range' (h : Nat → Option String) (m : String) :
    ∀ (cnt s j0 : Nat), s ≤ j0 → j0 < s + cnt → h j0 = some m →
      (∀ k, s ≤ k → k < j0 → h k = none) →
      ((List.range' s cnt).filterMap h).head? = some m
  | 0, s, j0, hle, hlt, _, _ => by omega
  | cnt + 1, s, j0, hle, hlt, hsome, hnone => by
    rw [List.range'_succ, List.filterMap_cons]
    by_cases hs : s = j0
    · subst hs
      rw [hsome]
      rfl
    · rw [hnone s le_rfl (by omega)]
      exact head?_filterMap_range' h m cnt (s + 1) j0 (by omega) (by omega) hsome
        (fun k hk1 hk2 => hnone k (by omega) hk2)

theorem head?_filterMap_range (h : Nat → Option String) (n j0 : Nat) (m : String)
    (hj : j0 < n) (hsome : h j0 = some m) (hnone : ∀ k, k < j0 → h k = none) :
    ((List.range n).filterMap h).head? = some m := by
  rw [List.range_eq_range']
  exact head?_filterMap_range' h m n 0 j0 (Nat.zero_le _) (by omega) hsome
    (fun k _ hk => hnone k hk)

/-- C4 (counterexample): a chunk whose synthesis call failed with an empty
error message (`str(e) == ""`, e.g. a bare `TimeoutError` caught at line
131) stores `(index, None, "", None)` in `results_data`; the truthiness
test `if error_msg_from_chunk:` (line 778) treats the empty string as no
error and the record as a trivially empty chunk, so
`all_tts_chunks_succeeded` stays true and the merge IS invoked — without
that chunk's audio — and the run ends in success, refuting the original
claim that any stored error skips the merge and fails the run. -/
theorem C4_empty_error_merges :
    finalRec (taskSlot envEmptyErr) 1 = ⟨1, none, some "", none⟩ ∧
    (run_conversion_concurrent_ffmpeg envEmptyErr).mergeInvoked = true ∧
    (run_conversion_concurrent_ffmpeg envEmptyErr).events =
      [FinalEvent.success "out.mp3"] := by decide

/-- C4 (amended): if any `results_data` record contributes an error under
the loop's truthiness tests — a stored chunk error whose message is
non-empty, or a truthy reported artifact that fails the
`exists ∧ size > 0` validation — then merge is skipped entirely (the merge
tool is never invoked) and the run fails surfacing exactly the error of
the lowest-indexed such chunk.  A chunk failure stored with an empty
error message does not count: the truthiness test at line 778
reclassifies it as a trivial success. -/
theorem C4_merge_skipped_first_error (env : RunEnv) (j0 : Nat) (m : String)
    (h0 : env.closing0 = false) (hcc : env.closingCreate = none)
    (hcg : env.closingAfterGather = false) (hri : env.raiseInResults = false)
    (hperm : env.completionOrder.Perm (List.range env.chunks.length))
    (hj0 : j0 < env.chunks.length)
    (hfail : scanError env.fileOk (finalRec (taskSlot env) j0) = some m)
    (hmin : ∀ k, k < j0 → scanError env.fileOk (finalRec (taskSlot env) k) = none) :
    (run_conversion_concurrent_ffmpeg env).mergeInvoked = false ∧
    (run_conversion_concurrent_ffmpeg env).events = [FinalEvent.error m] := by
  have hn : env.chunks.length ≠ 0 := by omega
  have hw : writeResults env.chunks.length (taskSlot env) env.completionOrder =
      (List.range env.chunks.length).map (finalRec (taskSlot env)) :=
    writeResults_perm _ _ _ hperm
  have hallOk : (process_results env.fileOk env.chunks.length
      ((List.range env.chunks.length).map (finalRec (taskSlot env)))).allOk = false := by
    unfold process_results
    rw [scan_allOk]
    have hall : ((List.range env.chunks.length).map (finalRec (taskSlot env))).all
        (fun r => (scanError env.fileOk r).isNone) = false := by
      rw [List.all_eq_false]
      refine ⟨finalRec (taskSlot env) j0,
        List.mem_map_of_mem _ (List.mem_range.mpr hj0), ?_⟩
      rw [hfail]
      simp
    rw [hall, Bool.and_false]
  have hfe : (process_results env.fileOk env.chunks.length
      ((List.range env.chunks.length).map (finalRec (taskSlot env)))).firstError =
      some m := by
    unfold process_results
    rw [scan_firstError]
    dsimp only
    rw [List.filterMap_map]
    exact head?_filterMap_range _ _ _ _ hj0 hfail hmin
  unfold run_conversion_concurrent_ffmpeg
  rw [h0, hcc, hcg, hri]
  simp only [Bool.false_eq_true, if_false, hn, if_neg hn]
  rw [hw]
  rw [hallOk]
  simp only [Bool.false_and, Bool.and_false, if_false]
  rw [hfe]
  exact ⟨rfl, rfl⟩

/-- Witness for C4: three chunks, chunk 1 fails, completion order 2,0,1. -/
theorem C4_merge_skipped_first_error_witness :
    (run_conversion_concurrent_ffmpeg envOneFail).mergeInvoked = false ∧
    (run_conversion_concurrent_ffmpeg envOneFail).events =
      [FinalEvent.error (chunkFailMsg 1 "boom")] :=
  C4_merge_skipped_first_error envOneFail 1 (chunkFailMsg 1 "boom") rfl rfl rfl rfl
    (by decide) (by decide) (by decide) (by decide)

/-! ## C3: cleanup on termination paths -/

theorem cleanup_foldl_false (removeOk : String → Bool) :
    ∀ (paths : List String) (fs : String → Bool) (p : String), fs p = false →
      (paths.foldl
        (fun fs q =>
          if fs q && removeOk q then (fun x => if x = q then false else fs x) else fs)
        fs) p = false
  | [], fs, p, h => h
  | q :: rest, fs, p, h => by
    rw [List.foldl_cons]
    apply cleanup_foldl_false removeOk rest _ p
    by_cases hc : (fs q && removeOk q) = true
    · rw [if_pos hc]
      by_cases hpq : p = q <;> simp [hpq, h]
    · rw [if_neg hc]
      exact h

theorem cleanup_foldl_removes (removeOk : String → Bool) :
    ∀ (paths : List String) (fs : String → Bool) (p : String), p ∈ paths →
      removeOk p = true →
      (paths.foldl
        (fun fs q =>
          if fs q && removeOk q then (fun x => if x = q then false else fs x) else fs)
        fs) p = false
  | [], fs, p, hp, _ => absurd hp (List.not_mem_nil p)
  | q :: rest, fs, p, hp, hrem => by
    rw [List.foldl_cons]
    by_cases hpr : p ∈ rest
    · exact cleanup_foldl_removes removeOk rest _ p hpr hrem
    · have hpq : p = q := by
        rcases List.mem_cons.mp hp with h | h
        · exact h
        · exact absurd h hpr
      subst hpq
      apply cleanup_foldl_false
      by_cases hc : (fs p && removeOk p) = true
      · rw [if_pos hc]
        simp
      · rw [if_neg hc]
        rw [Bool.and_eq_true] at hc
        rcases Bool.eq_false_iff.mpr (fun h => hc ⟨h, hrem⟩) with h
        cases hfs : fs p
        · rfl
        · exact absurd ⟨hfs, hrem⟩ hc

theorem cleanup_called_or_nothing_registered (env : RunEnv)
    (hr : (run_conversion_concurrent_ffmpeg env).raised = false) :
    (run_conversion_concurrent_ffmpeg env).cleanupCalled = true ∨
      (run_conversion_concurrent_ffmpeg env).registered = [] := by
  revert hr
  unfold run_conversion_concurrent_ffmpeg
  dsimp only
  repeat' split
  all_goals intro hr
  all_goals first
    | exact Or.inl rfl
    | exact Or.inr rfl
    | exact absurd hr (by simp)

/-- C3 (amended): on every termination path of the pipeline body — success,
chunk failures, no-audio, missing ffmpeg, merge failure, merge timeout, or
cooperative cancellation — the cleanup pass runs (or nothing was ever
registered), so every registered path whose removal succeeds is gone from
disk afterwards; and replacing the removal-success oracle never changes
the run's emitted outcome (removal failures are logged, not escalated).
The exception, forced by the counterexample, is an unexpected error
escaping the pipeline body: `run_conversion_wrapper` catches it, reports
it and resets the UI, but cannot run the temp-file cleanup. -/
theorem C3_cleanup_amended (env : RunEnv) (p : String) :
    ((run_conversion_concurrent_ffmpeg env).raised = false →
      p ∈ (run_conversion_concurrent_ffmpeg env).registered →
      env.removeOk p = true → finalExists env p = false) ∧
    ((run_conversion_concurrent_ffmpeg env).raised = false →
      (run_conversion_concurrent_ffmpeg env).cleanupCalled = true ∨
        (run_conversion_concurrent_ffmpeg env).registered = []) ∧
    (∀ rok : String → Bool,
      (run_conversion_concurrent_ffmpeg (setRemoveOk env rok)).events =
        (run_conversion_concurrent_ffmpeg env).events) := by
  refine ⟨?_, cleanup_called_or_nothing_registered env, ?_⟩
  · intro hr hp hrem
    rcases cleanup_called_or_nothing_registered env hr with hc | hreg
    · unfold finalExists
      simp only [hc, if_true]
      unfold cleanup_temp_files
      exact cleanup_foldl_removes env.removeOk _ _ p hp hrem
    · rw [hreg] at hp
      exact absurd hp (List.not_mem_nil p)
  · intro rok
    rfl

/-- C3 (counterexample): a run during which an unexpected error escapes the
pipeline body terminates through the wrapper's `except` handler with an
error reported — yet the registered temp file of its successfully
synthesised chunk is still on disk, because that handler performs no
temp-file cleanup. -/
theorem C3_cleanup_counterexample :
    (run_conversion_wrapper envRaise).events =
      [FinalEvent.error "Unexpected async error: boom"] ∧
    "tmp0" ∈ (run_conversion_concurrent_ffmpeg envRaise).registered ∧
    finalExists envRaise "tmp0" = true := by decide

/-- Witness for C3 (amended): the same run without the escaping exception
does remove its registered temp file. -/
theorem C3_cleanup_amended_witness : finalExists envClean "tmp0" = false :=
  (C3_cleanup_amended envClean "tmp0").1 (by decide) (by decide) (by decide)

/-! ## C8: where the long-paragraph loop cuts -/

/-- C8 (counterexample): in `"ab. cd.x hi"` with `maxLength = 5` the only
spec-valid sentence boundary in the window is at index 2 (the first `'.'`,
followed by a space, not an abbreviation), yet the code cuts the first
chunk exactly at `maxLength` (producing `"ab. c"` instead of `"ab."`):
`rfind` returns only the right-most `'.'` of the window (index 6, which is
followed by `'x'` and thus invalid), so the earlier valid boundary is
never examined — refuting "only when no valid sentence boundary exists in
the window does it cut exactly at maxLength". -/
theorem C8_furthest_boundary_counterexample :
    cexPara.length = 11 ∧
    specValidBoundary cexPara 0 5 2 = true ∧
    (∀ i, i < 11 → specValidBoundary cexPara 0 5 i = true → i = 2) ∧
    split_text_simple cexPara 5 =
      ["ab. c".toList, "d.x h".toList, "i".toList] := by decide

/-- C8 (amended): for each of `'.'`, `'?'`, `'!'` the segmenter examines
only the right-most occurrence of that character within the window
`[cursor, min (cursor+maxLength+50) len)`; the cut is placed after the
furthest of those (at most three) per-punctuation candidates that is a
valid boundary — strictly past the cursor, followed by whitespace or the
paragraph end, and not rejected by the abbreviation heuristic (which is
applied only more than two characters past the cursor); earlier
occurrences of a punctuation are never examined.  Only when none of the
three right-most occurrences is valid does it cut exactly at `maxLength`
(clamped to the paragraph end). -/
theorem C8_per_punct_rightmost (p : List Char) (start maxLen : Nat) :
    best_break p start maxLen = (codeCandidates p start maxLen).max? ∧
    chunk_end p start maxLen =
      (match (codeCandidates p start maxLen).max? with
        | some b => b + 1
        | none => if p.length ≤ start + maxLen then p.length else start + maxLen) ∧
    (∀ ch b, punctCandidate p start maxLen ch = some b →
      p.getD b ' ' = ch ∧ start < b ∧ b < min (start + maxLen + 50) p.length ∧
        boundaryOK p b = true ∧ abbrevSkip p start b = false ∧
        ∀ j, b < j → j < min (start + maxLen + 50) p.length → p.getD j ' ' ≠ ch) := by
  refine ⟨best_break_eq_max? p start maxLen, ?_, ?_⟩
  · unfold chunk_end
    rw [best_break_eq_max? p start maxLen]
  · intro ch b h
    exact punctCandidate_spec h

/-- Witness for C8 (amended): in `"abcdefg. hi"` with `maxLength = 5` the
accepted candidate is the right-most `'.'` at index 7, and no later
position in the window holds a `'.'`. -/
theorem C8_per_punct_rightmost_witness :
    best_break paraB 0 5 = some 7 ∧ paraB.getD 9 ' ' ≠ '.' := by
  have h := C8_per_punct_rightmost paraB 0 5
  refine ⟨?_, ?_⟩
  · rw [h.1]
    decide
  · exact (h.2.2 '.' 7 (by decide)).2.2.2.2.2 9 (by decide) (by decide)

/-! ## Basic facts about `pyStrip` and `splitOnSep` -/

theorem pyStrip_nil : pyStrip [] = [] := rfl

theorem pyStrip_eq_nil_iff (l : List Char) :
    pyStrip l = [] ↔ ∀ c ∈ l, pyIsSpace c = true := by
  unfold pyStrip
  rw [List.rdropWhile_eq_nil_iff]
  constructor
  · intro h c hc
    have hc2 : c ∈ List.takeWhile pyIsSpace l ++ List.dropWhile pyIsSpace l := by
      rw [List.takeWhile_append_dropWhile]
      exact hc
    rcases List.mem_append.mp hc2 with hc' | hc'
    · exact List.mem_takeWhile_imp hc'
    · exact h c hc'
  · intro h c hc
    exact h c ((List.dropWhile_sublist pyIsSpace).subset hc)

theorem pyStrip_length_le (l : List Char) : (pyStrip l).length ≤ l.length := by
  unfold pyStrip
  calc ((l.dropWhile pyIsSpace).rdropWhile pyIsSpace).length
      ≤ (l.dropWhile pyIsSpace).length :=
        (List.rdropWhile_prefix pyIsSpace _).sublist.length_le
    _ ≤ l.length := (List.dropWhile_sublist pyIsSpace).length_le

theorem splitOnSep_no_sep (text : List Char) (h : findSub nlnl text = none) :
    splitOnSep text = [text] := by
  unfold splitOnSep
  cases hl : text.length with
  | zero => rfl
  | succ m =>
    unfold splitOnSepF
    rw [h]

theorem splitOnSepF_piece_sub :
    ∀ (fuel : Nat) (l c : List Char), c ∈ splitOnSepF fuel l → c <:+: l
  | 0, l, c, h => by
    simp only [splitOnSepF, List.mem_singleton] at h
    exact h ▸ List.infix_rfl
  | fuel + 1, l, c, h => by
    unfold splitOnSepF at h
    cases hf : findSub nlnl l with
    | none =>
      rw [hf] at h
      simp only [List.mem_singleton] at h
      exact h ▸ List.infix_rfl
    | some i =>
      rw [hf] at h
      rcases List.mem_cons.mp h with rfl | h
      · exact (List.take_prefix i l).isInfix
      · exact (splitOnSepF_piece_sub fuel _ c h).trans
          (List.drop_suffix (i + 2) l).isInfix

theorem splitOnSep_piece_sub (l c : List Char) (h : c ∈ splitOnSep l) : c <:+: l :=
  splitOnSepF_piece_sub l.length l c h

/-! ## C9: short inputs give one trimmed chunk; blank inputs give none -/

/-- C9: a text that fits within `maxLength` and contains no blank-line
paragraph break segments to exactly one chunk, the input with surrounding
whitespace trimmed — except that an empty or whitespace-only input yields
the empty sequence (never an exception: the embedding is a total
function). -/
theorem C9_single_chunk (text : List Char) (maxLen : Nat) :
    (pyStrip text ≠ [] → text.length ≤ maxLen → hasNlNl text = false →
      split_text_simple text maxLen = [pyStrip text]) ∧
    (pyStrip text = [] → split_text_simple text maxLen = []) := by
  constructor
  · intro hne hlen hnl
    have ht : text ≠ [] := fun h => hne (by rw [h]; rfl)
    have hsep : findSub nlnl text = none := by
      cases h : findSub nlnl text with
      | none => rfl
      | some i =>
        unfold hasNlNl at hnl
        rw [h] at hnl
        simp at hnl
    unfold split_text_simple
    rw [if_neg ht, splitOnSep_no_sep text hsep]
    dsimp only
    rw [List.flatMap_cons, List.flatMap_nil, if_neg hne, List.append_nil]
    have hplen : (pyStrip text).length ≤ maxLen :=
      le_trans (pyStrip_length_le text) hlen
    unfold paragraphChunks
    rw [if_pos hplen]
    have hfilter : ([pyStrip text].filter (fun c => !c.isEmpty)) = [pyStrip text] := by
      simp [List.filter_cons, List.isEmpty_iff, hne]
    rw [hfilter]
    have : ([pyStrip text] = [] && !(pyStrip text).isEmpty) = false := by simp
    rw [this, if_neg (by simp)]
  · intro hstrip
    by_cases ht : text = []
    · simp [split_text_simple, ht]
    · have hall : ∀ c ∈ text, pyIsSpace c = true := (pyStrip_eq_nil_iff text).mp hstrip
      unfold split_text_simple
      rw [if_neg ht]
      dsimp only
      have hchunks : ((splitOnSep text).flatMap (fun para0 =>
          let para := pyStrip para0
          if para = [] then [] else paragraphChunks maxLen para)) = [] := by
        rw [List.flatMap_eq_nil_iff]
        intro para0 hp
        have hpara : pyStrip para0 = [] := by
          rw [pyStrip_eq_nil_iff]
          intro c hc
          exact hall c ((splitOnSep_piece_sub text para0 hp).subset hc)
        simp [hpara]
      rw [hchunks]
      simp [hstrip]

/-! ## Occurrences of the paragraph separator -/

theorem findSub_some_isPrefix {sep : List Char} :
    ∀ {l : List Char} {i : Nat}, findSub sep l = some i → sep <+: l.drop i
  | [], i, h => by
    unfold findSub at h
    split at h
    · cases h
      exact List.isPrefixOf_iff_prefix.mp (by assumption)
    · cases h
  | c :: rest, i, h => by
    unfold findSub at h
    split at h
    · cases h
      exact List.isPrefixOf_iff_prefix.mp (by assumption)
    · cases hr : findSub sep rest with
      | none => rw [hr] at h; cases h
      | some i' =>
        rw [hr] at h
        cases h
        show sep <+: rest.drop i'
        exact findSub_some_isPrefix hr

theorem findSub_none_no_occurrence {sep : List Char} :
    ∀ {l : List Char}, findSub sep l = none → ∀ j, ¬ sep <+: l.drop j
  | [], h, j => by
    unfold findSub at h
    split at h
    · cases h
    · intro hp
      rw [List.drop_nil] at hp
      exact absurd (List.isPrefixOf_iff_prefix.mpr hp) (by assumption)
  | c :: rest, h, j => by
    unfold findSub at h
    split at h
    · cases h
    · cases hr : findSub sep rest with
      | some i' => rw [hr] at h; cases h
      | none =>
        cases j with
        | zero =>
          intro hp
          exact absurd (List.isPrefixOf_iff_prefix.mpr hp) (by assumption)
        | succ j' => exact findSub_none_no_occurrence hr j'

theorem findSub_some_min {sep : List Char} :
    ∀ {l : List Char} {i : Nat}, findSub sep l = some i →
      ∀ j, j < i → ¬ sep <+: l.drop j
  | [], i, h, j, hj => by
    unfold findSub at h
    split at h <;> cases h
    omega
  | c :: rest, i, h, j, hj => by
    unfold findSub at h
    split at h
    · cases h; omega
    · cases hr : findSub sep rest with
      | none => rw [hr] at h; cases h
      | some i' =>
        rw [hr] at h
        cases h
        cases j with
        | zero =>
          intro hp
          exact absurd (List.isPrefixOf_iff_prefix.mpr hp) (by assumption)
        | succ j' =>
          have hj2 : j' < i' := by simpa using hj
          show ¬ sep <+: rest.drop j'
          exact findSub_some_min hr j' hj2

/-- Occurrences transfer along infixes, so a list without the separator
has separator-free infixes. -/
theorem findSub_none_of_sub {m p : List Char} (hp : findSub nlnl p = none)
    (hinf : m <:+: p) : findSub nlnl m = none := by
  cases hm : findSub nlnl m with
  | none => rfl
  | some i =>
    exfalso
    obtain ⟨u, v, rfl⟩ := hinf
    have hocc : nlnl <+: m.drop i := findSub_some_isPrefix hm
    have hlen : i ≤ m.length := by
      rcases hocc with ⟨t, ht⟩
      by_contra hgt
      rw [List.drop_eq_nil_of_le (by omega)] at ht
      have := congrArg List.length ht
      simp [nlnl] at this
    have hdec : nlnl <+: (u ++ m ++ v).drop (u.length + i) := by
      rw [List.append_assoc, List.drop_append i]
      rw [List.drop_append_of_le_length hlen]
      exact hocc.trans (List.prefix_append _ v)
    exact findSub_none_no_occurrence hp (u.length + i) hdec

theorem splitOnSepF_piece_no_sep :
    ∀ (fuel : Nat) (l : List Char), l.length ≤ fuel →
      ∀ piece ∈ splitOnSepF fuel l, findSub nlnl piece = none
  | 0, l, hl, piece, hp => by
    have : l = [] := List.length_eq_zero.mp (by omega)
    subst this
    simp only [splitOnSepF, List.mem_singleton] at hp
    subst hp
    rfl
  | fuel + 1, l, hl, piece, hp => by
    unfold splitOnSepF at hp
    cases hf : findSub nlnl l with
    | none =>
      rw [hf] at hp
      simp only [List.mem_singleton] at hp
      subst hp
      exact hf
    | some i =>
      rw [hf] at hp
      rcases List.mem_cons.mp hp with rfl | hp
      · cases hocc : findSub nlnl (l.take i) with
        | none => rfl
        | some j =>
          exfalso
          have hpre : nlnl <+: (l.take i).drop j := findSub_some_isPrefix hocc
          have hj2 : j + 2 ≤ i := by
            rcases hpre with ⟨t, ht⟩
            have := congrArg List.length ht
            simp [nlnl, List.length_drop, List.length_take] at this
            omega
          have hpre2 : nlnl <+: l.drop j := by
            have h1 : (l.take i).drop j = (l.drop j).take (i - j) := List.drop_take i j l
            rw [h1] at hpre
            exact hpre.trans (List.take_prefix _ _)
          exact findSub_some_min hf j (by omega) hpre2
      · have hfuel : (l.drop (i + 2)).length ≤ fuel := by
          have hi : i < l.length := by
            have := findSub_some_isPrefix hf
            rcases this with ⟨t, ht⟩
            by_contra hgt
            rw [List.drop_eq_nil_of_le (by omega)] at ht
            have := congrArg List.length ht
            simp [nlnl] at this
          rw [List.length_drop]
          omega
        exact splitOnSepF_piece_no_sep fuel _ hfuel piece hp

theorem splitOnSep_piece_no_sep (l : List Char) :
    ∀ piece ∈ splitOnSep l, findSub nlnl piece = none :=
  splitOnSepF_piece_no_sep l.length l le_rfl

/-! ## More facts about `pyStrip` -/

theorem dropWhile_eq_drop (p : Char → Bool) :
    ∀ l : List Char, l.dropWhile p = l.drop (l.takeWhile p).length
  | [] => rfl
  | c :: t => by
    cases hc : p c with
    | true =>
      rw [List.dropWhile_cons_of_pos hc, List.takeWhile_cons_of_pos hc]
      simpa using dropWhile_eq_drop p t
    | false =>
      rw [List.dropWhile_cons_of_neg (by simp [hc]), List.takeWhile_cons_of_neg (by simp [hc])]
      rfl

theorem head?_dropWhile_not (p : Char → Bool) :
    ∀ (l : List Char) (c : Char), (l.dropWhile p).head? = some c → p c = false
  | [], c, h => by simp at h
  | a :: t, c, h => by
    cases ha : p a with
    | true =>
      rw [List.dropWhile_cons_of_pos ha] at h
      exact head?_dropWhile_not p t c h
    | false =>
      rw [List.dropWhile_cons_of_neg (by simp [ha])] at h
      cases h
      exact ha

theorem dropWhile_of_head?_not (p : Char → Bool) (l : List Char) (c : Char)
    (hh : l.head? = some c) (hc : p c = false) : l.dropWhile p = l := by
  cases l with
  | nil => rfl
  | cons a t =>
    cases hh
    exact List.dropWhile_cons_of_neg (by simp [hc])

theorem isPrefix_head? {l₁ l₂ : List Char} (h : l₁ <+: l₂) (hne : l₁ ≠ []) :
    l₂.head? = l₁.head? := by
  rcases h with ⟨t, rfl⟩
  cases l₁ with
  | nil => exact absurd rfl hne
  | cons a t₁ => rfl

theorem pyStrip_idem (l : List Char) : pyStrip (pyStrip l) = pyStrip l := by
  by_cases hnil : pyStrip l = []
  · rw [hnil]
    rfl
  · have hpre : pyStrip l <+: l.dropWhile pyIsSpace :=
      List.rdropWhile_prefix pyIsSpace _
    have hdwne : l.dropWhile pyIsSpace ≠ [] := by
      intro h
      apply hnil
      unfold pyStrip
      rw [h]
      rfl
    obtain ⟨c, hc⟩ : ∃ c, (l.dropWhile pyIsSpace).head? = some c := by
      cases hh : (l.dropWhile pyIsSpace).head? with
      | none => exact absurd (List.head?_eq_none_iff.mp hh) hdwne
      | some c => exact ⟨c, rfl⟩
    have hcns : pyIsSpace c = false := head?_dropWhile_not pyIsSpace l c hc
    have hshead : (pyStrip l).head? = some c := by
      rw [isPrefix_head? hpre hnil] at hc
      exact hc
    show ((pyStrip l).dropWhile pyIsSpace).rdropWhile pyIsSpace = pyStrip l
    rw [dropWhile_of_head?_not pyIsSpace _ c hshead hcns]
    exact List.rdropWhile_idempotent pyIsSpace _

theorem pyStrip_sub (l : List Char) : pyStrip l <:+: l :=
  (List.rdropWhile_prefix pyIsSpace _).isInfix.trans
    (List.dropWhile_suffix pyIsSpace).isInfix

theorem pyStrip_stripped_dropWhile (l : List Char) (h : pyStrip l = l) :
    l.dropWhile pyIsSpace = l := by
  have h1 : (l.dropWhile pyIsSpace).length ≤ l.length :=
    (List.dropWhile_sublist pyIsSpace).length_le
  have h2 : (pyStrip l).length ≤ (l.dropWhile pyIsSpace).length :=
    (List.rdropWhile_prefix pyIsSpace _).sublist.length_le
  rw [h] at h2
  have hlen : (l.dropWhile pyIsSpace).length = l.length := by omega
  exact (List.dropWhile_sublist pyIsSpace).eq_of_length hlen

theorem pyStrip_stripped_rdropWhile (l : List Char) (h : pyStrip l = l) :
    l.rdropWhile pyIsSpace = l := by
  have := h
  unfold pyStrip at this
  rw [pyStrip_stripped_dropWhile l h] at this
  exact this

theorem stripped_head_not_space (l : List Char) (h : pyStrip l = l) (hne : l ≠ []) :
    ∃ c, l.head? = some c ∧ pyIsSpace c = false := by
  obtain ⟨c, hc⟩ : ∃ c, l.head? = some c := by
    cases hh : l.head? with
    | none => exact absurd (List.head?_eq_none_iff.mp hh) hne
    | some c => exact ⟨c, rfl⟩
  refine ⟨c, hc, ?_⟩
  have hdw := pyStrip_stripped_dropWhile l h
  rw [← hdw] at hc
  exact head?_dropWhile_not pyIsSpace l c hc

theorem rdropWhile_last_not_space (l : List Char) (c : Char)
    (hh : l.getLast? = some c) (hc : pyIsSpace c = false) :
    l.rdropWhile pyIsSpace = l := by
  rw [List.rdropWhile_eq_self_iff]
  intro hl
  rw [List.getLast?_eq_getLast l hl] at hh
  cases hh
  simp [hc]

theorem stripped_last_not_space (l : List Char) (h : pyStrip l = l) (hne : l ≠ []) :
    ∃ c, l.getLast? = some c ∧ pyIsSpace c = false := by
  obtain ⟨c, hc⟩ : ∃ c, l.getLast? = some c := by
    cases hh : l.getLast? with
    | none => exact absurd (List.getLast?_eq_none_iff.mp hh) hne
    | some c => exact ⟨c, rfl⟩
  refine ⟨c, hc, ?_⟩
  by_contra hsp
  rw [Bool.not_eq_false] at hsp
  have hrd := pyStrip_stripped_rdropWhile l h
  rw [List.rdropWhile_eq_self_iff] at hrd
  have hlast := List.getLast?_eq_getLast l hne
  rw [hlast] at hc
  cases hc
  exact hrd hne (by simpa using hsp)

/-- Stripping a list whose last element is not whitespace only drops from
the front, so the result is a suffix with the same last element. -/
theorem pyStrip_last_not_space (l : List Char) (c : Char)
    (hh : l.getLast? = some c) (hc : pyIsSpace c = false) :
    pyStrip l = l.drop (l.takeWhile pyIsSpace).length ∧
      (pyStrip l).getLast? = some c := by
  have hk : (l.takeWhile pyIsSpace).length < l.length := by
    by_contra hge
    have : l.dropWhile pyIsSpace = [] := by
      rw [dropWhile_eq_drop]
      exact List.drop_eq_nil_of_le (by omega)
    have hall : ∀ x ∈ l, pyIsSpace x = true := by
      intro x hx
      have hx2 : x ∈ List.takeWhile pyIsSpace l ++ List.dropWhile pyIsSpace l := by
        rw [List.takeWhile_append_dropWhile]
        exact hx
      rcases List.mem_append.mp hx2 with hx' | hx'
      · exact List.mem_takeWhile_imp hx'
      · rw [this] at hx'
        simp at hx'
    have hlne : l ≠ [] := by
      intro h0
      rw [h0] at hh
      simp at hh
    have hcl : c ∈ l := by
      rw [List.getLast?_eq_getLast l hlne] at hh
      cases hh
      exact List.getLast_mem hlne
    rw [hall c hcl] at hc
    cases hc
  have hdlast : (l.drop (l.takeWhile pyIsSpace).length).getLast? = some c := by
    rw [List.getLast?_drop, if_neg (by omega)]
    exact hh
  constructor
  · unfold pyStrip
    rw [dropWhile_eq_drop]
    exact rdropWhile_last_not_space _ c hdlast hc
  · unfold pyStrip
    rw [dropWhile_eq_drop, rdropWhile_last_not_space _ c hdlast hc]
    exact hdlast

/-! ## Every chunk the long-paragraph loop emits is a `goodChunk` -/

theorem pySlice_getElem? (p : List Char) (a b j : Nat) (h : a + j < b) :
    (pySlice p a b)[j]? = p[a + j]? := by
  unfold pySlice
  rw [List.getElem?_drop, List.getElem?_take, if_pos h]

theorem pySlice_length (p : List Char) (a b : Nat) :
    (pySlice p a b).length = min b p.length - a := by
  simp [pySlice, List.length_drop, List.length_take]

theorem getD_of_getElem? (l : List Char) (i : Nat) (c d : Char)
    (h : l[i]? = some c) : l.getD i d = c := by
  rw [List.getD_eq_getElem?_getD, h]
  rfl

theorem punct_not_space {ch : Char} (h : ch ∈ [('.' : Char), '?', '!']) :
    pyIsSpace ch = false := by
  rcases List.mem_cons.mp h with rfl | h
  · decide
  rcases List.mem_cons.mp h with rfl | h
  · decide
  rcases List.mem_cons.mp h with rfl | h
  · decide
  simp at h

theorem chunk_good (p : List Char) (maxLen start : Nat)
    (hsep : findSub nlnl p = none)
    (hchunk : pyStrip (pySlice p start (chunk_end p start maxLen)) ≠ []) :
    goodChunk maxLen (pyStrip (pySlice p start (chunk_end p start maxLen))) := by
  set e := chunk_end p start maxLen with he
  set c := pyStrip (pySlice p start e) with hc
  have hinfix : c <:+: p := by
    rw [hc]
    exact (pyStrip_sub _).trans
      ((List.drop_suffix start _).isInfix.trans (List.take_prefix e p).isInfix)
  refine ⟨hchunk, pyStrip_idem _, findSub_none_of_sub hsep hinfix, ?_⟩
  cases hbb : best_break p start maxLen with
  | none =>
    left
    have hee : e ≤ start + maxLen := by
      rw [he]
      unfold chunk_end
      rw [hbb]
      dsimp only
      split <;> omega
    calc c.length ≤ (pySlice p start e).length := pyStrip_length_le _
      _ ≤ maxLen := by rw [pySlice_length]; omega
  | some b =>
    right
    have hmax : (codeCandidates p start maxLen).max? = some b := by
      rw [← best_break_eq_max?]
      exact hbb
    obtain ⟨hbmem, _⟩ := max?_spec _ _ hmax
    obtain ⟨ch, hchmem, hcand⟩ := codeCandidates_mem.mp hbmem
    obtain ⟨hgd, hsb, hbw, hbdy, hab, _⟩ := punctCandidate_spec hcand
    have hblen : b < p.length := lt_of_lt_of_le hbw (min_le_right _ _)
    have heb : e = b + 1 := by
      rw [he]
      unfold chunk_end
      rw [hbb]
    have hslen : (pySlice p start e).length = b + 1 - start := by
      rw [pySlice_length, heb]
      omega
    have hsliceb : (pySlice p start e)[(pySlice p start e).length - 1]? = some ch := by
      rw [hslen, show b + 1 - start - 1 = b - start by omega,
        pySlice_getElem? p start e (b - start) (by omega)]
      rw [show start + (b - start) = b by omega, List.getElem?_eq_getElem hblen]
      rw [← hgd, List.getD_eq_getElem _ ' ' hblen]
    have hslast : (pySlice p start e).getLast? = some ch := by
      rw [List.getLast?_eq_getElem?]
      exact hsliceb
    have hchns : pyIsSpace ch = false := punct_not_space hchmem
    obtain ⟨hdrop, hclast⟩ := pyStrip_last_not_space (pySlice p start e) ch hslast hchns
    set k := ((pySlice p start e).takeWhile pyIsSpace).length with hk
    have hcdrop : c = (pySlice p start e).drop k := by
      rw [hc, hdrop]
    have hclen : c.length = (pySlice p start e).length - k := by
      rw [hcdrop, List.length_drop]
    have hkb : k < (pySlice p start e).length := by
      by_contra hge
      apply hchunk
      rw [hcdrop]
      exact List.drop_eq_nil_of_le (by omega)
    have hlen50 : c.length ≤ maxLen + 50 := by
      have : b < start + maxLen + 50 := lt_of_lt_of_le hbw (min_le_left _ _)
      omega
    have hlastD : c.getD (c.length - 1) ' ' = ch := by
      apply getD_of_getElem?
      rw [← List.getLast?_eq_getElem?, hclast]
    refine ⟨hlen50, ?_, ?_⟩
    · unfold lastIsPunct
      rw [hlastD]
      have hcne : c.isEmpty = false := by
        cases hcc : c with
        | nil => exact absurd hcc hchunk
        | cons a t => rfl
      rw [hcne]
      rcases List.mem_cons.mp hchmem with rfl | h2
      · rfl
      rcases List.mem_cons.mp h2 with rfl | h3
      · rfl
      rcases List.mem_cons.mp h3 with rfl | h4
      · rfl
      simp at h4
    · by_cases hL : c.length ≤ 3
      · left
        exact hL
      · right
        have h4L : 4 ≤ c.length := by omega
        have h3lt : 3 ≤ c.length := by omega
        have hb2 : start + 2 < b := by omega
        have hstep : ∀ j : Nat, (c)[j]? = (pySlice p start e)[k + j]? := by
          intro j
          rw [hcdrop, List.getElem?_drop]
        have hidx3 : (c)[c.length - 3]? = (p)[b - 2]? := by
          rw [hstep (c.length - 3),
            pySlice_getElem? p start e (k + (c.length - 3)) (by omega)]
          congr 1
          omega
        have hidx2 : (c)[c.length - 2]? = (p)[b - 1]? := by
          rw [hstep (c.length - 2),
            pySlice_getElem? p start e (k + (c.length - 2)) (by omega)]
          congr 1
          omega
        have e3 : c.getD (c.length - 3) ' ' = p.getD (b - 2) ' ' := by
          rw [List.getD_eq_getElem?_getD, hidx3, ← List.getD_eq_getElem?_getD]
        have e2 : c.getD (c.length - 2) ' ' = p.getD (b - 1) ' ' := by
          rw [List.getD_eq_getElem?_getD, hidx2, ← List.getD_eq_getElem?_getD]
        unfold endAbbrevPattern
        rw [e3, e2]
        unfold abbrevSkip at hab
        rw [decide_eq_true hb2] at hab
        rw [decide_eq_true h3lt]
        simp only [Bool.true_and] at hab ⊢
        exact hab

theorem splitLongLoop_good (p : List Char) (maxLen : Nat)
    (hsep : findSub nlnl p = none) :
    ∀ (fuel start : Nat) (c : List Char), c ∈ splitLongLoop p maxLen fuel start →
      goodChunk maxLen c
  | 0, start, c, h => by simp [splitLongLoop] at h
  | fuel + 1, start, c, h => by
    unfold splitLongLoop at h
    by_cases hs : start < p.length
    · rw [if_pos hs] at h
      dsimp only at h
      by_cases hch : pyStrip (pySlice p start (chunk_end p start maxLen)) = []
      · rw [if_pos hch] at h
        exact splitLongLoop_good p maxLen hsep fuel _ c h
      · rw [if_neg hch] at h
        rcases List.mem_cons.mp h with rfl | h
        · exact chunk_good p maxLen start hsep hch
        · exact splitLongLoop_good p maxLen hsep fuel _ c h
    · rw [if_neg hs] at h
      simp at h

theorem paragraphChunks_good (para : List Char) (maxLen : Nat)
    (hstr : pyStrip para = para) (hne : para ≠ [])
    (hsep : findSub nlnl para = none) :
    ∀ c ∈ paragraphChunks maxLen para, goodChunk maxLen c := by
  intro c hc
  unfold paragraphChunks at hc
  by_cases hlen : para.length ≤ maxLen
  · rw [if_pos hlen] at hc
    simp only [List.mem_singleton] at hc
    subst hc
    exact ⟨hne, hstr, hsep, Or.inl hlen⟩
  · rw [if_neg hlen] at hc
    exact splitLongLoop_good para maxLen hsep _ _ c hc

theorem splitOnSepF_mem_flatten :
    ∀ (fuel : Nat) (l : List Char) (x : Char), x ∈ l →
      x ∈ (splitOnSepF fuel l).flatten ∨ x = '\n'
  | 0, l, x, hx => by
    left
    simpa [splitOnSepF] using hx
  | fuel + 1, l, x, hx => by
    unfold splitOnSepF
    cases hf : findSub nlnl l with
    | none =>
      left
      simpa using hx
    | some i =>
      have hocc := findSub_some_isPrefix hf
      obtain ⟨t, ht⟩ := hocc
      have hdropt : l.drop i = '\n' :: '\n' :: l.drop (i + 2) := by
        have ht2 : l.drop (i + 2) = t := by
          have : List.drop 2 (l.drop i) = List.drop 2 (nlnl ++ t) := by rw [ht]
          rw [List.drop_drop] at this
          simpa [nlnl] using this
        rw [ht2, ← ht]
        rfl
      have hx2 : x ∈ l.take i ++ l.drop i := by
        rw [List.take_append_drop]
        exact hx
      rcases List.mem_append.mp hx2 with hx' | hx'
      · left
        rw [List.flatten_cons]
        exact List.mem_append_left _ hx'
      · rw [hdropt] at hx'
        rcases List.mem_cons.mp hx' with rfl | hx'
        · right
          rfl
        rcases List.mem_cons.mp hx' with rfl | hx'
        · right
          rfl
        rcases splitOnSepF_mem_flatten fuel (l.drop (i + 2)) x hx' with hm | hm
        · left
          rw [List.flatten_cons]
          exact List.mem_append_right _ hm
        · right
          exact hm

theorem exists_nonblank_piece (text : List Char) (h : pyStrip text ≠ []) :
    ∃ para0 ∈ splitOnSep text, pyStrip para0 ≠ [] := by
  obtain ⟨x, hx, hxs⟩ : ∃ x ∈ text, pyIsSpace x = false := by
    by_contra hall
    push_neg at hall
    apply h
    rw [pyStrip_eq_nil_iff]
    intro c hc
    have := hall c hc
    cases hcs : pyIsSpace c
    · exact absurd hcs this
    · rfl
  rcases splitOnSepF_mem_flatten text.length text x hx with hf | rfl
  · obtain ⟨piece, hpmem, hxp⟩ := List.mem_flatten.mp hf
    refine ⟨piece, hpmem, fun hnil => ?_⟩
    have := (pyStrip_eq_nil_iff piece).mp hnil x hxp
    rw [this] at hxs
    cases hxs
  · exact absurd hxs (by decide)

theorem chunk_end_pos (p : List Char) (maxLen : Nat) (hml : 1 ≤ maxLen)
    (hp : p ≠ []) : 1 ≤ chunk_end p 0 maxLen := by
  unfold chunk_end
  cases hbb : best_break p 0 maxLen with
  | some b => dsimp only; omega
  | none =>
    have : 1 ≤ p.length := by
      cases p
      · exact absurd rfl hp
      · simp
    dsimp only
    split <;> omega

theorem pyStrip_cons_not_space (c0 : Char) (rest : List Char)
    (hc0 : pyIsSpace c0 = false) : pyStrip (c0 :: rest) ≠ [] := by
  intro hnil
  have := (pyStrip_eq_nil_iff (c0 :: rest)).mp hnil c0 (List.mem_cons_self _ _)
  rw [this] at hc0
  cases hc0

theorem paragraphChunks_has_nonempty (para : List Char) (maxLen : Nat)
    (hml : 1 ≤ maxLen) (hstr : pyStrip para = para) (hne : para ≠ []) :
    ∃ x ∈ paragraphChunks maxLen para, x ≠ [] := by
  unfold paragraphChunks
  by_cases hlen : para.length ≤ maxLen
  · rw [if_pos hlen]
    exact ⟨para, List.mem_singleton.mpr rfl, hne⟩
  · rw [if_neg hlen]
    obtain ⟨c0, hh, hc0⟩ := stripped_head_not_space para hstr hne
    obtain ⟨rest, hrest⟩ : ∃ rest, para = c0 :: rest := by
      cases para with
      | nil => exact absurd rfl hne
      | cons a t =>
        cases hh
        exact ⟨t, rfl⟩
    have he1 : 1 ≤ chunk_end para 0 maxLen := chunk_end_pos para maxLen hml hne
    obtain ⟨e2, hee⟩ : ∃ e2, chunk_end para 0 maxLen = e2 + 1 :=
      ⟨chunk_end para 0 maxLen - 1, by omega⟩
    have hslice : pySlice para 0 (chunk_end para 0 maxLen) = c0 :: rest.take e2 := by
      rw [hee]
      show ((para.take (e2 + 1)).drop 0) = c0 :: rest.take e2
      rw [hrest, List.take_succ_cons, List.drop_zero]
    have hch : pyStrip (pySlice para 0 (chunk_end para 0 maxLen)) ≠ [] := by
      rw [hslice]
      exact pyStrip_cons_not_space c0 _ hc0
    refine ⟨pyStrip (pySlice para 0 (chunk_end para 0 maxLen)), ?_, hch⟩
    have hlen1 : 0 < para.length := by
      rw [hrest]
      simp
    unfold splitLongLoop
    rw [if_pos hlen1]
    dsimp only
    rw [if_neg hch]
    exact List.mem_cons_self _ _


theorem split_text_simple_good (text : List Char) (maxLen : Nat) (hml : 1 ≤ maxLen) :
    ∀ c ∈ split_text_simple text maxLen, goodChunk maxLen c := by
  intro c hc
  by_cases ht : text = []
  · rw [ht] at hc
    simp [split_text_simple] at hc
  · unfold split_text_simple at hc
    rw [if_neg ht] at hc
    dsimp only at hc
    have hmemgood : ∀ x,
        x ∈ (splitOnSep text).flatMap (fun para0 =>
          let para := pyStrip para0
          if para = [] then [] else paragraphChunks maxLen para) →
        goodChunk maxLen x := by
      intro x hx
      rw [List.mem_flatMap] at hx
      obtain ⟨para0, hp0, hxp⟩ := hx
      dsimp only at hxp
      by_cases hps : pyStrip para0 = []
      · rw [if_pos hps] at hxp
        simp at hxp
      · rw [if_neg hps] at hxp
        have hsep0 : findSub nlnl para0 = none := splitOnSep_piece_no_sep text para0 hp0
        exact paragraphChunks_good (pyStrip para0) maxLen (pyStrip_idem para0) hps
          (findSub_none_of_sub hsep0 (pyStrip_sub para0)) x hxp
    by_cases hcond : ((splitOnSep text).flatMap (fun para0 =>
        let para := pyStrip para0
        if para = [] then [] else paragraphChunks maxLen para)).filter
        (fun c => !c.isEmpty) = [] ∧ pyStrip text ≠ []
    · exfalso
      obtain ⟨hfe, hpsne⟩ := hcond
      obtain ⟨para0, hp0, hps⟩ := exists_nonblank_piece text hpsne
      obtain ⟨x, hxmem, hxne⟩ := paragraphChunks_has_nonempty (pyStrip para0) maxLen hml
        (pyStrip_idem para0) hps
      have hxflat : x ∈ (splitOnSep text).flatMap (fun para0 =>
          let para := pyStrip para0
          if para = [] then [] else paragraphChunks maxLen para) := by
        rw [List.mem_flatMap]
        refine ⟨para0, hp0, ?_⟩
        dsimp only
        rw [if_neg hps]
        exact hxmem
      have : x ∈ ((splitOnSep text).flatMap (fun para0 =>
          let para := pyStrip para0
          if para = [] then [] else paragraphChunks maxLen para)).filter
          (fun c => !c.isEmpty) := by
        rw [List.mem_filter]
        refine ⟨hxflat, ?_⟩
        cases hxx : x with
        | nil => exact absurd hxx hxne
        | cons a t => rfl
      rw [hfe] at this
      simp at this
    · have hcondb : (((splitOnSep text).flatMap (fun para0 =>
          let para := pyStrip para0
          if para = [] then [] else paragraphChunks maxLen para)).filter
          (fun c => !c.isEmpty) = [] && !(pyStrip text).isEmpty) = false := by
        rw [Bool.and_eq_false_iff]
        by_cases h1 : ((splitOnSep text).flatMap (fun para0 =>
            let para := pyStrip para0
            if para = [] then [] else paragraphChunks maxLen para)).filter
            (fun c => !c.isEmpty) = []
        · right
          rw [Bool.not_eq_false', List.isEmpty_iff]
          by_contra h2
          exact hcond ⟨h1, h2⟩
        · left
          simpa using h1
      rw [hcondb] at hc
      rw [if_neg (by simp)] at hc
      exact hmemgood c (List.mem_filter.mp hc).1

theorem splitLongLoop_done (p : List Char) (maxLen : Nat) :
    ∀ (fuel start : Nat), p.length ≤ start → splitLongLoop p maxLen fuel start = []
  | 0, start, _ => rfl
  | fuel + 1, start, h => by
    unfold splitLongLoop
    rw [if_neg (by omega)]

theorem goodChunk_fixed (maxLen : Nat) (hml : 1 ≤ maxLen) (c : List Char)
    (hg : goodChunk maxLen c) : paragraphChunks maxLen c = [c] := by
  obtain ⟨hne, hstr, hsep, hclause⟩ := hg
  unfold paragraphChunks
  by_cases hlen : c.length ≤ maxLen
  · rw [if_pos hlen]
  · rw [if_neg hlen]
    rcases hclause with h | ⟨hlen50, hpunct, habbrev⟩
    · exact absurd h hlen
    have hL2 : 2 ≤ c.length := by omega
    unfold lastIsPunct at hpunct
    rw [Bool.and_eq_true] at hpunct
    set ch := c.getD (c.length - 1) ' ' with hch
    have hcand : punctCandidate c 0 maxLen ch = some (c.length - 1) := by
      unfold punctCandidate
      have hrf : pyRfind c ch 0 (min (0 + maxLen + 50) c.length) = some (c.length - 1) := by
        apply pyRfind_eq_some
        · omega
        · have : min (0 + maxLen + 50) c.length = c.length := by omega
          omega
        · rfl
        · intro j hj1 hj2
          omega
      have hlt : 0 < c.length - 1 := by omega
      have hbdy : boundaryOK c (c.length - 1) = true := by
        unfold boundaryOK
        have : c.length - 1 + 1 = c.length := by omega
        rw [this]
        simp
      have habk : abbrevSkip c 0 (c.length - 1) = false := by
        unfold abbrevSkip
        by_cases h3 : 2 < c.length - 1
        · rcases habbrev with h | h
          · omega
          · unfold endAbbrevPattern at h
            rw [decide_eq_true (show 3 ≤ c.length by omega)] at h
            rw [decide_eq_true h3]
            rw [show c.length - 1 - 2 = c.length - 3 by omega,
              show c.length - 1 - 1 = c.length - 2 by omega]
            simp only [Bool.true_and] at h ⊢
            exact h
        · rw [decide_eq_false h3]
          simp
      rw [hrf]
      dsimp only
      rw [hbdy, habk]
      simp [hlt]
    have hbb : best_break c 0 maxLen = some (c.length - 1) := by
      rw [best_break_eq_max?]
      apply max?_eq_some_of
      · rw [codeCandidates_mem]
        refine ⟨ch, ?_, hcand⟩
        have := hpunct.2
        rw [Bool.or_eq_true, Bool.or_eq_true] at this
        rcases this with (h | h) | h <;> rw [beq_iff_eq] at h <;> rw [h] <;> simp
      · intro x hx
        rw [codeCandidates_mem] at hx
        obtain ⟨ch', _, hcand'⟩ := hx
        obtain ⟨_, _, hw, _, _, _⟩ := punctCandidate_spec hcand'
        have : min (0 + maxLen + 50) c.length ≤ c.length := min_le_right _ _
        omega
    have hce : chunk_end c 0 maxLen = c.length := by
      unfold chunk_end
      rw [hbb]
      dsimp only
      omega
    obtain ⟨m, hm⟩ : ∃ m, c.length = m + 1 := ⟨c.length - 1, by omega⟩
    show splitLongLoop c maxLen (c.length + 1) 0 = [c]
    unfold splitLongLoop
    rw [if_pos (by omega)]
    dsimp only
    rw [hce]
    have hslice : pySlice c 0 c.length = c := by
      unfold pySlice
      rw [List.take_length, List.drop_zero]
    rw [hslice, hstr]
    rw [if_neg hne]
    rw [splitLongLoop_done c maxLen c.length c.length le_rfl]

/-! ## Re-splitting the joined chunks -/

theorem findSub_append_sep :
    ∀ (c rest : List Char), findSub nlnl c = none → c.getLast? ≠ some '\n' →
      findSub nlnl (c ++ '\n' :: '\n' :: rest) = some c.length
  | [], rest, _, _ => by
    show findSub nlnl ('\n' :: '\n' :: rest) = some 0
    have hpre : nlnl.isPrefixOf ('\n' :: '\n' :: rest) = true := by
      simp [nlnl, List.isPrefixOf]
    unfold findSub
    rw [hpre]
    rfl
  | a :: c', rest, hns, hlast => by
    have hnp : nlnl.isPrefixOf (a :: (c' ++ '\n' :: '\n' :: rest)) = false := by
      cases c' with
      | nil =>
        have ha : a ≠ '\n' := by
          intro h
          exact hlast (by rw [h]; rfl)
        have hba : (('\n' : Char) == a) = false := beq_eq_false_iff_ne.mpr (Ne.symm ha)
        simp [nlnl, List.isPrefixOf, hba]
      | cons b c2 =>
        by_cases hb : a = '\n' ∧ b = '\n'
        · exfalso
          have hpre : nlnl.isPrefixOf (a :: b :: c2) = true := by
            simp [nlnl, List.isPrefixOf, hb.1, hb.2]
          unfold findSub at hns
          rw [hpre] at hns
          simp at hns
        · by_cases hA : a = '\n'
          · have hB : b ≠ '\n' := fun h => hb ⟨hA, h⟩
            have hbb : (('\n' : Char) == b) = false := beq_eq_false_iff_ne.mpr (Ne.symm hB)
            simp [nlnl, List.isPrefixOf, hbb]
          · have hba : (('\n' : Char) == a) = false := beq_eq_false_iff_ne.mpr (Ne.symm hA)
            simp [nlnl, List.isPrefixOf, hba]
    have hns' : findSub nlnl c' = none := by
      unfold findSub at hns
      split at hns
      · cases hns
      · cases hfc : findSub nlnl c' with
        | none => rfl
        | some j => rw [hfc] at hns; cases hns
    have hlast' : c'.getLast? ≠ some '\n' := by
      cases c' with
      | nil => simp
      | cons b t =>
        rw [List.getLast?_cons_cons] at hlast
        exact hlast
    show findSub nlnl (a :: (c' ++ '\n' :: '\n' :: rest)) = some (a :: c').length
    unfold findSub
    rw [hnp]
    simp only [Bool.false_eq_true, if_false]
    rw [findSub_append_sep c' rest hns' hlast']
    simp [List.length_cons]

theorem intercalate_single (c : List Char) : List.intercalate nlnl [c] = c := by
  simp [List.intercalate]

theorem intercalate_cons2 (c c2 : List Char) (t : List (List Char)) :
    List.intercalate nlnl (c :: c2 :: t) =
      c ++ nlnl ++ List.intercalate nlnl (c2 :: t) := by
  simp [List.intercalate, List.intersperse]

theorem intercalate_length_ge :
    ∀ cs : List (List Char), cs ≠ [] → (∀ c ∈ cs, c ≠ []) →
      cs.length ≤ (List.intercalate nlnl cs).length
  | [], h, _ => absurd rfl h
  | [c], _, hall => by
    rw [intercalate_single]
    have : c ≠ [] := hall c (List.mem_cons_self _ _)
    cases c with
    | nil => exact absurd rfl this
    | cons a t => simp
  | c :: c2 :: t, _, hall => by
    rw [intercalate_cons2]
    have ih := intercalate_length_ge (c2 :: t) (by simp)
      (fun x hx => hall x (List.mem_cons_of_mem _ hx))
    simp only [List.length_append, List.length_cons]
    simp [nlnl] at ih ⊢
    omega

theorem splitOnSepF_intercalate :
    ∀ (cs : List (List Char)) (fuel : Nat), cs ≠ [] → cs.length ≤ fuel + 1 →
      (∀ c ∈ cs, c ≠ [] ∧ findSub nlnl c = none ∧ c.getLast? ≠ some '\n') →
      splitOnSepF fuel (List.intercalate nlnl cs) = cs
  | [], fuel, h, _, _ => absurd rfl h
  | [c], fuel, _, _, hall => by
    rw [intercalate_single]
    have hfs : findSub nlnl c = none := (hall c (List.mem_cons_self _ _)).2.1
    cases fuel with
    | zero => rfl
    | succ f =>
      unfold splitOnSepF
      rw [hfs]
  | c :: c2 :: t, fuel, _, hlen, hall => by
    cases fuel with
    | zero => simp at hlen
    | succ f =>
      rw [intercalate_cons2]
      have hc := hall c (List.mem_cons_self _ _)
      have hfs : findSub nlnl
          (c ++ nlnl ++ List.intercalate nlnl (c2 :: t)) = some c.length := by
        rw [List.append_assoc]
        exact findSub_append_sep c _ hc.2.1 hc.2.2
      have htake : (c ++ nlnl ++ List.intercalate nlnl (c2 :: t)).take c.length
          = c := by
        rw [List.append_assoc]
        exact List.take_left c _
      have hdrop : (c ++ nlnl ++ List.intercalate nlnl (c2 :: t)).drop
          (c.length + 2) = List.intercalate nlnl (c2 :: t) := by
        rw [show c.length + 2 = (c ++ nlnl).length by simp [nlnl]]
        exact List.drop_left _ _
      unfold splitOnSepF
      rw [hfs]
      dsimp only
      rw [htake, hdrop]
      rw [splitOnSepF_intercalate (c2 :: t) f (by simp)
        (by simpa using Nat.le_of_succ_le_succ hlen)
        (fun x hx => hall x (List.mem_cons_of_mem _ hx))]

theorem splitOnSep_intercalate (cs : List (List Char)) (hne : cs ≠ [])
    (hcond : ∀ c ∈ cs, c ≠ [] ∧ findSub nlnl c = none ∧ c.getLast? ≠ some '\n') :
    splitOnSep (List.intercalate nlnl cs) = cs := by
  unfold splitOnSep
  apply splitOnSepF_intercalate cs _ hne _ hcond
  have := intercalate_length_ge cs hne (fun c hc => (hcond c hc).1)
  omega

theorem flatMap_id_of (f : List Char → List (List Char)) :
    ∀ cs : List (List Char), (∀ c ∈ cs, f c = [c]) → cs.flatMap f = cs
  | [], _ => rfl
  | c :: t, h => by
    rw [List.flatMap_cons, h c (List.mem_cons_self _ _),
      flatMap_id_of f t (fun x hx => h x (List.mem_cons_of_mem _ hx))]
    rfl

theorem resplit_of_good (cs : List (List Char)) (maxLen : Nat) (hml : 1 ≤ maxLen)
    (hne : cs ≠ []) (hgood : ∀ c ∈ cs, goodChunk maxLen c) :
    split_text_simple (List.intercalate nlnl cs) maxLen = cs := by
  have hcond : ∀ c ∈ cs, c ≠ [] ∧ findSub nlnl c = none ∧ c.getLast? ≠ some '\n' := by
    intro c hc
    obtain ⟨h1, h2, h3, _⟩ := hgood c hc
    refine ⟨h1, h3, ?_⟩
    obtain ⟨d, hd, hdsp⟩ := stripped_last_not_space c h2 h1
    rw [hd]
    intro heq
    injection heq with heq
    rw [heq] at hdsp
    exact absurd hdsp (by decide)
  have hsplit := splitOnSep_intercalate cs hne hcond
  have hT : List.intercalate nlnl cs ≠ [] := by
    intro h
    have hlen := intercalate_length_ge cs hne (fun c hc => (hcond c hc).1)
    rw [h] at hlen
    simp at hlen
    exact hne hlen
  unfold split_text_simple
  rw [if_neg hT]
  dsimp only
  rw [hsplit]
  have hmap : cs.flatMap (fun para0 =>
      let para := pyStrip para0
      if para = [] then [] else paragraphChunks maxLen para) = cs := by
    apply flatMap_id_of
    intro c hc
    obtain ⟨h1, h2, _, _⟩ := hgood c hc
    dsimp only
    rw [h2, if_neg h1]
    exact goodChunk_fixed maxLen hml c (hgood c hc)
  rw [hmap]
  have hfil : cs.filter (fun c => !c.isEmpty) = cs := by
    apply List.filter_eq_self.mpr
    intro c hc
    simp [List.isEmpty_iff, (hcond c hc).1]
  rw [hfil]
  have hb : decide (cs = []) = false := decide_eq_false hne
  rw [hb]
  simp

/-- C10: segmentation is idempotent — re-running `split_text_simple` (with
the same `max_length ≥ 1`) on the chunks it produced, joined back together
with the normalized blank-line separator `"\n\n"`, reproduces exactly the
same chunk sequence. -/
theorem C10_segmentation_idempotent (text : List Char) (maxLen : Nat)
    (hml : 1 ≤ maxLen) :
    split_text_simple
        (List.intercalate nlnl (split_text_simple text maxLen)) maxLen =
      split_text_simple text maxLen := by
  cases hcs : split_text_simple text maxLen with
  | nil => rfl
  | cons c0 t =>
    have hgood : ∀ c ∈ c0 :: t, goodChunk maxLen c := by
      intro c hc
      exact split_text_simple_good text maxLen hml c (by rw [hcs]; exact hc)
    exact resplit_of_good (c0 :: t) maxLen hml (by simp) hgood

/-- Witness for C10: re-splitting the joined chunks of the C8 example text
at `max_length = 5` reproduces them. -/
theorem C10_segmentation_idempotent_witness :
    1 ≤ 5 ∧
      split_text_simple
          (List.intercalate nlnl (split_text_simple cexPara 5)) 5 =
        split_text_simple cexPara 5 :=
  ⟨by decide, C10_segmentation_idempotent cexPara 5 (by decide)⟩

/-- Witness for C9: a short text with no blank line yields its trimmed self
as the single chunk, and a whitespace-only text yields no chunks. -/
theorem C9_single_chunk_witness :
    split_text_simple " hi ".toList 5 = [pyStrip " hi ".toList] ∧
      split_text_simple "  ".toList 5 = [] :=
  ⟨(C9_single_chunk " hi ".toList 5).1 (by decide) (by decide) (by decide),
   (C9_single_chunk "  ".toList 5).2 (by decide)⟩
